import Mathlib

/-!
Verification of the AI-response parsing and normalization pipeline of the
LogicGuard backend (`backend/app.py`), against its specification.

The core under study is `parse_ai_response` (spec name `normalizeAnalysis`):
a layered parse/fallback normalizer over the raw LLM reply, together with the
language-coercion logic of the route layer, the generation-path code-fence
stripper, and the persistence isolation of the analyze endpoint.

Shallow embedding conventions:
* Python `str` values are Lean `String`/`List Char`.
* `json.loads` is modelled by `jsonLoadsL`, a fueled recursive-descent parser
  reproducing the stdlib decoder: JSON values plus the Python extensions
  `NaN` / `Infinity` / `-Infinity`, leading-zero rejection, rejection of raw
  control characters in strings (strict mode), `\uXXXX` escapes with
  surrogate-pair combination, duplicate object keys resolved last-value-wins
  at the first occurrence position, and surrounding whitespace tolerance
  (the grammar is `ws value ws`, modelled by trimming the JSON whitespace
  characters up front; the value scanner itself never consumes trailing
  whitespace, so this is extensionally the stdlib behavior).
  Python floats are kept as their source lexemes (no floating-point
  semantics are needed by any claim); a lone `\u` surrogate (representable
  in a Python `str` but not as a Lean `Char`) is modelled by U+FFFD.
* The two `re` patterns of `parse_ai_response` are modelled by executable
  functions realizing the leftmost-match backtracking semantics of the
  concrete patterns (checked against CPython `re` on the relevant families):
  - `` ```(?:json)?\s*([\s\S]*?)\s*``` `` is `fencedGroup`: the first
    triple-backtick occurrence followed by another one opens the match; the
    greedy optional `json` tag and the flanking greedy `\s*` against the lazy
    group make the capture the whitespace-stripped text before the first
    subsequent closing triple backtick.
  - `\{[\s\S]*\}` is `braceSpan`: the substring from the first brace `` { ``
    to the last brace `` } `` of the text, when the latter follows the former.
-/

/-- A Python value as produced by `json.loads`: JSON values plus the stdlib
extensions (`NaN`, `Infinity`, `-Infinity`), with floats kept as their
unevaluated source lexemes. -/
inductive Json where
  | null
  | bool (b : Bool)
  | int (n : Int)
  | float (lexeme : List Char)
  | nan
  | inf (neg : Bool)
  | str (s : String)
  | arr (items : List Json)
  | obj (members : List (String × Json))

/-- The JSON whitespace characters skipped by the stdlib decoder (` \t\n\r`). -/
def isJsonWs (c : Char) : Bool :=
  c = ' ' || c = '\t' || c = '\n' || c = '\r'

/-- The characters matched by `\s` in `re` and stripped by `str.strip` (the
ASCII whitespace set: JSON whitespace plus vertical tab and form feed). -/
def isPyWs (c : Char) : Bool :=
  isJsonWs c || c = '\x0b' || c = '\x0c'

/-- Skip leading JSON whitespace. -/
def skipWs (cs : List Char) : List Char :=
  cs.dropWhile isJsonWs

/-- Drop trailing JSON whitespace. -/
def dropTrailWs (cs : List Char) : List Char :=
  (cs.reverse.dropWhile isJsonWs).reverse

/-- Trim JSON whitespace from both ends. -/
def trimWs (cs : List Char) : List Char :=
  dropTrailWs (skipWs cs)

/-- Insertion of a member into a Python dict built from pairs: the last value
for a repeated key wins, at the position of the first occurrence. -/
def objInsert (ms : List (String × Json)) (k : String) (v : Json) :
    List (String × Json) :=
  match ms with
  | [] => [(k, v)]
  | (k0, v0) :: t => if k0 = k then (k0, v) :: t else (k0, v0) :: objInsert t k v

/-- Decimal value of a digit list. -/
def digitsToNat (ds : List Char) : Nat :=
  ds.foldl (fun acc c => acc * 10 + (c.toNat - '0'.toNat)) 0

/-- The single-character string escapes accepted by the stdlib decoder. -/
def simpleEscape (c : Char) : Option Char :=
  if c = '"' then some '"'
  else if c = '\\' then some '\\'
  else if c = '/' then some '/'
  else if c = 'b' then some '\x08'
  else if c = 'f' then some '\x0c'
  else if c = 'n' then some '\n'
  else if c = 'r' then some '\r'
  else if c = 't' then some '\t'
  else none

/-- Value of one hexadecimal digit. -/
def hexDigit (c : Char) : Option Nat :=
  if '0' ≤ c ∧ c ≤ '9' then some (c.toNat - '0'.toNat)
  else if 'a' ≤ c ∧ c ≤ 'f' then some (c.toNat - 'a'.toNat + 10)
  else if 'A' ≤ c ∧ c ≤ 'F' then some (c.toNat - 'A'.toNat + 10)
  else none

/-- Value of a four-digit hexadecimal escape. -/
def hex4 (c1 c2 c3 c4 : Char) : Option Nat :=
  match hexDigit c1, hexDigit c2, hexDigit c3, hexDigit c4 with
  | some a, some b, some c, some d => some (((a * 16 + b) * 16 + c) * 16 + d)
  | _, _, _, _ => none

/-- The character denoted by a `\uXXXX` escape outside a surrogate pair: a
lone surrogate (legal in a Python `str`) is modelled by U+FFFD. -/
def uChar (n : Nat) : Char :=
  if 0xD800 ≤ n ∧ n ≤ 0xDFFF then '�' else Char.ofNat n

/-- The digit class `[0-9]` of the stdlib number token. -/
def isDigitCh (c : Char) : Bool :=
  decide (c ∈ ['0', '1', '2', '3', '4', '5', '6', '7', '8', '9'])

/-- The integer part of the stdlib number token `0 | [1-9][0-9]*`: its digit
list and the remaining input. -/
def lexInt (tail : List Char) : Option (List Char × List Char) :=
  match tail with
  | c :: t =>
    if c = '0' then some ([c], t)
    else if isDigitCh c then some (tail.takeWhile isDigitCh, tail.dropWhile isDigitCh)
    else none
  | [] => none

/-- The optional fraction part `.[0-9]+` of the stdlib number token: the
consumed characters (empty when absent) and the remaining input. -/
def lexFrac (cs : List Char) : List Char × List Char :=
  match cs with
  | c :: t2 =>
    if c = '.' then
      if (t2.takeWhile isDigitCh) = [] then ([], cs)
      else ('.' :: t2.takeWhile isDigitCh, t2.dropWhile isDigitCh)
    else ([], cs)
  | [] => ([], cs)

/-- The optional exponent part `[eE][+-]?[0-9]+` of the stdlib number token:
the consumed characters (empty when absent) and the remaining input. -/
def lexExp (cs : List Char) : List Char × List Char :=
  match cs with
  | e :: t3 =>
    if e = 'e' ∨ e = 'E' then
      match t3 with
      | s :: t4 =>
        if s = '+' ∨ s = '-' then
          if (t4.takeWhile isDigitCh) = [] then ([], cs)
          else (e :: s :: t4.takeWhile isDigitCh, t4.dropWhile isDigitCh)
        else if isDigitCh s then (e :: t3.takeWhile isDigitCh, t3.dropWhile isDigitCh)
        else ([], cs)
      | [] => ([], cs)
    else ([], cs)
  | [] => ([], cs)

/-- The number token after the optional sign: a fraction or exponent makes it
a float (kept as its lexeme), otherwise an int. -/
def parseNumberCore (neg : Bool) (tail : List Char) : Option (Json × List Char) :=
  match lexInt tail with
  | none => none
  | some (intDigits, afterInt) =>
    let fr := lexFrac afterInt
    let ex := lexExp fr.2
    if fr.1 = [] ∧ ex.1 = [] then
      some (Json.int (if neg then -(digitsToNat intDigits : Int)
        else (digitsToNat intDigits : Int)), afterInt)
    else
      some (Json.float ((if neg then ['-'] else []) ++ intDigits ++ fr.1 ++ ex.1), ex.2)

/-- The number lexer of the stdlib decoder (its `NUMBER_RE`): an optional
sign, an integer part `0 | [1-9][0-9]*`, an optional fraction `.[0-9]+` and
an optional exponent. -/
def parseNumber (cs : List Char) : Option (Json × List Char) :=
  match cs with
  | c :: t => if c = '-' then parseNumberCore true t else parseNumberCore false (c :: t)
  | [] => parseNumberCore false []

mutual

/-- The value scanner of the stdlib decoder (`_scan_once`), fueled. The input
is expected to start at a non-whitespace position; the scanner never consumes
whitespace after the value it returns. -/
def parseVal : Nat → List Char → Option (Json × List Char)
  | 0, _ => none
  | Nat.succ f, cs =>
    match cs with
    | [] => none
    | c :: rest =>
      if c = 'n' then
        if ['u', 'l', 'l'].isPrefixOf rest then some (Json.null, rest.drop 3) else none
      else if c = 't' then
        if ['r', 'u', 'e'].isPrefixOf rest then some (Json.bool true, rest.drop 3) else none
      else if c = 'f' then
        if ['a', 'l', 's', 'e'].isPrefixOf rest then some (Json.bool false, rest.drop 4) else none
      else if c = 'N' then
        if ['a', 'N'].isPrefixOf rest then some (Json.nan, rest.drop 2) else none
      else if c = 'I' then
        if ['n', 'f', 'i', 'n', 'i', 't', 'y'].isPrefixOf rest then
          some (Json.inf false, rest.drop 7)
        else none
      else if c = '-' then
        if ['I', 'n', 'f', 'i', 'n', 'i', 't', 'y'].isPrefixOf rest then
          some (Json.inf true, rest.drop 8)
        else parseNumber cs
      else if c = '"' then
        match parseStrBody f rest [] with
        | some (content, r) => some (Json.str (String.mk content), r)
        | none => none
      else if c = '\x7b' then parseObjBody f rest
      else if c = '[' then parseArrBody f rest
      else if isDigitCh c then parseNumber cs
      else none

/-- String-body scanner, entered just after the opening quote; `acc` holds
the decoded characters in reverse. Raw control characters are rejected
(strict mode); surrogate pairs of `\uXXXX` escapes are combined. -/
def parseStrBody : Nat → List Char → List Char → Option (List Char × List Char)
  | 0, _, _ => none
  | Nat.succ f, cs, acc =>
    match cs with
    | [] => none
    | c :: r =>
      if c = '"' then some (acc.reverse, r)
      else if c = '\\' then
        match r with
        | e :: r1 =>
          if e = 'u' then
            match r1 with
            | h1 :: h2 :: h3 :: h4 :: r2 =>
              match hex4 h1 h2 h3 h4 with
              | some n =>
                if 0xD800 ≤ n ∧ n ≤ 0xDBFF then
                  match r2 with
                  | b1 :: b2 :: g1 :: g2 :: g3 :: g4 :: r3 =>
                    if b1 = '\\' ∧ b2 = 'u' then
                      match hex4 g1 g2 g3 g4 with
                      | some m =>
                        if 0xDC00 ≤ m ∧ m ≤ 0xDFFF then
                          parseStrBody f r3
                            (Char.ofNat (0x10000 + (n - 0xD800) * 0x400 + (m - 0xDC00)) :: acc)
                        else parseStrBody f r2 (uChar n :: acc)
                      | none => parseStrBody f r2 (uChar n :: acc)
                    else parseStrBody f r2 (uChar n :: acc)
                  | _ => parseStrBody f r2 (uChar n :: acc)
                else parseStrBody f r2 (uChar n :: acc)
              | none => none
            | _ => none
          else
            match simpleEscape e with
            | some d => parseStrBody f r1 (d :: acc)
            | none => none
        | [] => none
      else if c.toNat < 0x20 then none
      else parseStrBody f r (c :: acc)

/-- Object scanner, entered just after the opening brace. -/
def parseObjBody : Nat → List Char → Option (Json × List Char)
  | 0, _ => none
  | Nat.succ f, cs =>
    match skipWs cs with
    | c :: r => if c = '\x7d' then some (Json.obj [], r) else parseMembers f (c :: r) []
    | [] => none

/-- Member loop of the object scanner; the input is expected at the opening
quote of the next key. -/
def parseMembers : Nat → List Char → List (String × Json) →
    Option (Json × List Char)
  | 0, _, _ => none
  | Nat.succ f, cs, acc =>
    match cs with
    | c :: r =>
      if c = '"' then
        match parseStrBody f r [] with
        | some (key, r1) =>
          match skipWs r1 with
          | c2 :: r2 =>
            if c2 = ':' then
              match parseVal f (skipWs r2) with
              | some (v, r3) =>
                let acc2 := objInsert acc (String.mk key) v
                match skipWs r3 with
                | c3 :: r4 =>
                  if c3 = ',' then parseMembers f (skipWs r4) acc2
                  else if c3 = '\x7d' then some (Json.obj acc2, r4)
                  else none
                | [] => none
              | none => none
            else none
          | [] => none
        | none => none
      else none
    | [] => none

/-- Array scanner, entered just after the opening bracket. -/
def parseArrBody : Nat → List Char → Option (Json × List Char)
  | 0, _ => none
  | Nat.succ f, cs =>
    match skipWs cs with
    | c :: r => if c = ']' then some (Json.arr [], r) else parseItems f (c :: r) []
    | [] => none

/-- Item loop of the array scanner; the input is expected at the first
character of the next value. -/
def parseItems : Nat → List Char → List Json → Option (Json × List Char)
  | 0, _, _ => none
  | Nat.succ f, cs, acc =>
    match parseVal f cs with
    | some (v, r1) =>
      match skipWs r1 with
      | c2 :: r2 =>
        if c2 = ',' then parseItems f (skipWs r2) (acc ++ [v])
        else if c2 = ']' then some (Json.arr (acc ++ [v]), r2)
        else none
      | [] => none
    | none => none

end

/-- The model of `json.loads` on a character list: trim the surrounding JSON
whitespace, scan one value, and require the input to be exhausted. The fuel
`3 * length + 3` dominates the scanner's fuel use on every input. -/
def jsonLoadsL (cs : List Char) : Option Json :=
  let b := trimWs cs
  match parseVal (3 * b.length + 3) b with
  | some (v, []) => some v
  | _ => none

/-- The model of `json.loads` on a string. -/
def jsonLoads (s : String) : Option Json :=
  jsonLoadsL s.toList

/-- Whether the text starts with a triple backtick. -/
def startsTriple (cs : List Char) : Bool :=
  match cs with
  | a :: b :: c :: _ => a = '\x60' && b = '\x60' && c = '\x60'
  | _ => false

/-- Whether a triple backtick occurs in the text. -/
def containsTriple : List Char → Bool
  | [] => false
  | c :: t => startsTriple (c :: t) || containsTriple t

/-- Split the text at the first triple-backtick occurrence. -/
def splitTriple : List Char → Option (List Char × List Char)
  | [] => none
  | c :: t =>
    if startsTriple (c :: t) then some ([], t.drop 2)
    else
      match splitTriple t with
      | some (a, b) => some (c :: a, b)
      | none => none

/-- Drop trailing `\s` characters, as the greedy `\s*` before the closing
fence does. -/
def dropTrailPyWs (cs : List Char) : List Char :=
  (cs.reverse.dropWhile isPyWs).reverse

/-- The captured group of `` ```(?:json)?\s*([\s\S]*?)\s*``` `` once the
opening triple backtick has been consumed: the greedy optional tag, the
greedy whitespace run, then the lazily minimal content before the first
closing triple backtick, with the greedy `\s*` taking the trailing
whitespace. `afterOpen` is known to contain a closing triple backtick. -/
def extractGroup (afterOpen : List Char) : List Char :=
  let afterTag :=
    if ['j', 's', 'o', 'n'].isPrefixOf afterOpen then afterOpen.drop 4 else afterOpen
  let body := afterTag.dropWhile isPyWs
  match splitTriple body with
  | some (pre, _) => dropTrailPyWs pre
  | none => []

/-- The leftmost match of `` ```(?:json)?\s*([\s\S]*?)\s*``` ``: the first
position carrying a triple backtick with another triple backtick after it
starts the match; the captured group is computed by `extractGroup` from the
text after the opening triple. -/
def fencedGroup : List Char → Option (List Char)
  | [] => none
  | c :: t =>
    if startsTriple (c :: t) && containsTriple (t.drop 2) then
      some (extractGroup (t.drop 2))
    else fencedGroup t

/-- The match of `\{[\s\S]*\}`: the span from the first opening brace to the
last closing brace, when the text has an opening brace with a closing brace
somewhere after it. -/
def braceSpan (cs : List Char) : Option (List Char) :=
  let fromBrace := cs.dropWhile (fun c => c != '\x7b')
  let revSpan := fromBrace.reverse.dropWhile (fun c => c != '\x7d')
  if revSpan.isEmpty then none else some revSpan.reverse

/-- The fixed fallback object returned when every parse attempt fails
(`backend/app.py`, lines 138-150). -/
def fallback_response : Json :=
  Json.obj [
    ("score", Json.int 50),
    ("summary", Json.str "Unable to fully parse the AI response. Please try again."),
    ("bugs", Json.arr []),
    ("optimizations", Json.arr []),
    ("positives", Json.arr [Json.str "Code was submitted successfully"]),
    ("metrics", Json.obj [
      ("complexity", Json.str "medium"),
      ("readability", Json.int 50),
      ("maintainability", Json.int 50),
      ("security", Json.int 50)])]

/-- The analysis normalizer `parse_ai_response` (`backend/app.py`, lines
112-150): direct parse, then the first fenced block, then the first-brace to
last-brace span, then the fixed fallback. -/
def parse_ai_response (response_text : String) : Json :=
  let cs := response_text.toList
  match jsonLoadsL cs with
  | some v => v
  | none =>
    match (fencedGroup cs).bind jsonLoadsL with
    | some v => v
    | none =>
      match (braceSpan cs).bind jsonLoadsL with
      | some v => v
      | none => fallback_response

/-! ### The route layer around the core (`backend/app.py`) -/

/-- The `json.loads` call with its exception channel explicit: a failed parse
raises `JSONDecodeError`. -/
def json_loads_exc (cs : List Char) : Except String Json :=
  match jsonLoadsL cs with
  | some v => Except.ok v
  | none => Except.error "JSONDecodeError"

/-- The normalizer with every internal exception channel explicit, mirroring
the `try`/`except json.JSONDecodeError`/`pass` structure of
`parse_ai_response`: each failed `json.loads` raises, each raise is caught,
and the next strategy runs. -/
def parse_ai_response_exc (response_text : String) : Except String Json :=
  let cs := response_text.toList
  match json_loads_exc cs with
  | Except.ok v => Except.ok v
  | Except.error _ =>
    match fencedGroup cs with
    | some g =>
      match json_loads_exc g with
      | Except.ok v => Except.ok v
      | Except.error _ =>
        match braceSpan cs with
        | some b =>
          match json_loads_exc b with
          | Except.ok v => Except.ok v
          | Except.error _ => Except.ok fallback_response
        | none => Except.ok fallback_response
    | none =>
      match braceSpan cs with
      | some b =>
        match json_loads_exc b with
        | Except.ok v => Except.ok v
        | Except.error _ => Except.ok fallback_response
      | none => Except.ok fallback_response

/-- Whether a Python value is a dict. -/
def jsonIsObj : Json → Bool
  | Json.obj _ => true
  | _ => false

/-- Whether a dict has a given top-level key. -/
def jsonHasKey (j : Json) (k : String) : Bool :=
  match j with
  | Json.obj ms => ms.any (fun p => p.1 == k)
  | _ => false

/-- Whether all six `AnalysisResult` fields are present at the top level. -/
def hasAnalysisFields (j : Json) : Bool :=
  jsonHasKey j "score" && jsonHasKey j "summary" && jsonHasKey j "bugs" &&
    jsonHasKey j "optimizations" && jsonHasKey j "positives" && jsonHasKey j "metrics"

/-- The supported-language list of the analyze endpoint
(`backend/app.py`, line 290). -/
def supported_languages : List String :=
  ["python", "javascript", "java", "cpp", "c", "typescript", "go", "rust"]

/-- Python `str.lower` on the modelled (ASCII) alphabet. -/
def pyLower (s : String) : String :=
  String.mk (s.toList.map Char.toLower)

/-- The language value used by the analyze endpoint: the request value is
lowercased, then coerced to `"python"` when not in the supported list
(`backend/app.py`, lines 278 and 289-292). -/
def analyze_language (raw : String) : String :=
  let language := pyLower raw
  if supported_languages.contains language then language else "python"

/-- The language value used by the generate endpoint: the request value is
lowercased and used as-is, with no supported-language check
(`backend/app.py`, line 952). -/
def generate_language (raw : String) : String :=
  pyLower raw

/-- The rendering of `CODE_ANALYSIS_PROMPT.format(language=..., code=...)`
(`backend/app.py`, lines 61-109 and 158). -/
def buildAnalysisPrompt (language code : String) : String :=
  "You are an expert code reviewer and software engineer. Analyze the following "
    ++ language ++ " code and provide a comprehensive review.\n\nCODE TO ANALYZE:\n```"
    ++ language ++ "\n" ++ code ++
    "\n```\n\nProvide your analysis in the following JSON format (ONLY return valid JSON, no markdown):\n\x7b\n    \"score\": <number between 0-100>,\n    \"summary\": \"<brief 1-2 sentence summary of code quality>\",\n    \"bugs\": [\n        \x7b\n            \"severity\": \"critical|high|medium|low\",\n            \"line\": <line number or null if general>,\n            \"title\": \"<short bug title>\",\n            \"description\": \"<detailed explanation in simple, student-friendly language>\",\n            \"suggestion\": \"<how to fix it>\"\n        \x7d\n    ],\n    \"optimizations\": [\n        \x7b\n            \"category\": \"performance|readability|best-practices|security\",\n            \"title\": \"<short title>\",\n            \"description\": \"<explanation in beginner-friendly terms>\",\n            \"code_example\": \"<optional improved code snippet or null>\"\n        \x7d\n    ],\n    \"positives\": [\n        \"<things done well in the code>\"\n    ],\n    \"metrics\": \x7b\n        \"complexity\": \"<low|medium|high>\",\n        \"readability\": <score 0-100>,\n        \"maintainability\": <score 0-100>,\n        \"security\": <score 0-100>\n    \x7d\n\x7d\n\nGuidelines for your review:\n1. Detect syntax errors, logical bugs, and potential runtime issues\n2. Suggest performance improvements and optimizations\n3. Recommend best practices and coding standards\n4. Identify security vulnerabilities if any\n5. Explain issues in simple, beginner-friendly language that a student can understand\n6. Be constructive and helpful, not harsh\n7. Assign a fair quality score based on overall code quality\n\nReturn ONLY the JSON object, no additional text or markdown formatting."

/-- The prompt sent by the analyze endpoint for a request language `raw`:
rendered with the coerced language. -/
def analyze_prompt (raw code : String) : String :=
  buildAnalysisPrompt (analyze_language raw) code

/-- The rendering of `CODE_GENERATION_PROMPT.format(prompt=..., language=...)`
(`backend/app.py`, lines 920-933 and 968). -/
def buildGenerationPrompt (prompt language : String) : String :=
  "You are an expert programmer. Generate clean, well-commented, production-ready code based on the user\x27s request.\n\nUSER\x27S REQUEST: "
    ++ prompt ++ "\n\nPROGRAMMING LANGUAGE: " ++ language ++
    "\n\nRequirements:\n1. Write clean, readable, and well-structured code\n2. Include helpful comments explaining key parts\n3. Follow best practices for the specified language\n4. Handle edge cases appropriately\n5. Make the code production-ready\n\nReturn ONLY the code without any additional explanation or markdown formatting. The code should be ready to copy and use directly."

/-- The prompt sent by the generate endpoint for a request language `raw`:
rendered with the lowercased, uncoerced language. -/
def generate_prompt (userPrompt raw : String) : String :=
  buildGenerationPrompt userPrompt (generate_language raw)

/-- Split at every newline, as Python `str.split` with separator `"\n"`. -/
def splitNl : List Char → List (List Char)
  | [] => [[]]
  | c :: t =>
    if c = '\n' then [] :: splitNl t
    else
      match splitNl t with
      | h :: r => (c :: h) :: r
      | [] => [[c]]

/-- Join with newlines, as Python `"\n".join`. -/
def joinNl : List (List Char) → List Char
  | [] => []
  | l :: r =>
    match r with
    | [] => l
    | _ :: _ => l ++ '\n' :: joinNl r

/-- Python `str.strip` with no argument on the modelled (ASCII) alphabet. -/
def pyStripL (cs : List Char) : List Char :=
  ((cs.dropWhile isPyWs).reverse.dropWhile isPyWs).reverse

/-- The generation-path fence stripper (`backend/app.py`, lines 990-997): when
the text starts with a triple backtick, drop the first line; additionally drop
the last line when that line, stripped, is exactly a triple backtick. -/
def stripCodeFence (t : String) : String :=
  let cs := t.toList
  if ['\x60', '\x60', '\x60'].isPrefixOf cs then
    let lines := splitNl cs
    if pyStripL (lines.getLastD []) = ['\x60', '\x60', '\x60'] then
      String.mk (joinNl ((lines.drop 1).dropLast))
    else
      String.mk (joinNl (lines.drop 1))
  else t

/-- The response data of the generate endpoint (`backend/app.py`, lines
951-1006): the reply is stripped, de-fenced, and returned together with the
lowercased language and the original prompt. -/
structure GenerateData where
  code : String
  language : String
  prompt : String

/-- The generate endpoint's successful response payload. -/
def generate_code_data (userPrompt rawLanguage reply : String) : GenerateData :=
  let language := generate_language rawLanguage
  let generated := stripCodeFence (String.mk (pyStripL reply.toList))
  { code := generated, language := language, prompt := userPrompt }

/-- Outcome of the database-save block of the analyze endpoint: either the
commit succeeds and yields the new row id, or some step of the block raises. -/
inductive DbOutcome where
  | ok (id : Nat)
  | failed (msg : String)

/-- An endpoint response: `jsonify` with `success` true and a payload, or an
error body with a status code. -/
inductive ApiResponse where
  | success (data : Json)
  | failure (error : String) (status : Nat)

/-- Assignment `result["analysis_id"] = id` on a dict; on a non-dict the
assignment raises inside the same `try` block, so the caller treats that as
the `failed` outcome instead. -/
def setKey (j : Json) (k : String) (v : Json) : Json :=
  match j with
  | Json.obj ms => Json.obj (objInsert ms k v)
  | other => other

/-- The analyze endpoint after the AI call (`backend/app.py`, lines 304-329):
with a `user_id`, the save block runs under `try`/`except`; on success the
row id is attached to the result, on failure the result is left unchanged;
either way, the already-computed result is returned as a success response. -/
def analyze_response (result : Json) (user_id : Option Nat) (db : DbOutcome) :
    ApiResponse :=
  let result2 :=
    match user_id with
    | none => result
    | some _ =>
      match db with
      | DbOutcome.ok i => setKey result "analysis_id" (Json.int i)
      | DbOutcome.failed _ => result
  ApiResponse.success result2

/-- A character that cannot extend a number token of the scanner: not a
digit, not a decimal point, not an exponent marker. -/
def headSafe (c : Char) : Prop :=
  isDigitCh c = false ∧ c ≠ '.' ∧ c ≠ 'e' ∧ c ≠ 'E'

/-- An extension whose first character cannot extend a number token. -/
def extSafeS (ext : List Char) : Prop :=
  ∀ c t, ext = c :: t → headSafe c

/-- The boundary condition under which appending `ext` after a successful
scan with value `v` and remaining input `rest` cannot change the scan: the
remaining input already starts at a token-breaking character, or nothing
remains and the extension starts at one, or nothing remains and the value is
not a number token. -/
def restOk (v : Json) (rest ext : List Char) : Prop :=
  (∃ c t, rest = c :: t ∧ headSafe c) ∨ (rest = [] ∧ extSafeS ext) ∨
    (rest = [] ∧ (∀ n, v ≠ Json.int n) ∧ (∀ l, v ≠ Json.float l))

/-! ### Shared lemmas about the normalizer's cascade -/

/-- When all three parse attempts fail, the normalizer returns the fallback. -/
theorem parse_fallback_of_all_fail (t : String)
    (h1 : jsonLoadsL t.toList = none)
    (h2 : (fencedGroup t.toList).bind jsonLoadsL = none)
    (h3 : (braceSpan t.toList).bind jsonLoadsL = none) :
    parse_ai_response t = fallback_response := by
  unfold parse_ai_response
  simp only [h1, h2, h3]

/-- When the direct parse succeeds, the normalizer returns its value. -/
theorem parse_direct_of_loads (t : String) (v : Json)
    (h : jsonLoadsL t.toList = some v) :
    parse_ai_response t = v := by
  unfold parse_ai_response
  simp only [h]

/-! ### C1: the normalizer is total and absorbs every internal parse error -/

/-- C1 (confirmed). The normalizer never raises: the version with every
internal exception channel explicit always returns `ok`, and its value is
exactly the value of the total function `parse_ai_response`; every internal
parse failure is absorbed, reaching the fallback at worst. -/
theorem C1_normalizer_total_never_raises (t : String) :
    parse_ai_response_exc t = Except.ok (parse_ai_response t) := by
  unfold parse_ai_response_exc parse_ai_response json_loads_exc
  simp only [String.toList]
  cases h1 : jsonLoadsL t.data with
  | some v => simp only [h1]
  | none =>
    simp only [h1]
    cases h2 : fencedGroup t.data with
    | some g =>
      simp only [h2, Option.bind]
      cases h3 : jsonLoadsL g with
      | some v => simp only [h3]
      | none =>
        simp only [h3]
        cases h4 : braceSpan t.data with
        | some b =>
          simp only [h4, Option.bind]
          cases h5 : jsonLoadsL b with
          | some v => simp only [h5]
          | none => simp only [h5]
        | none => simp only [h4, Option.bind]
    | none =>
      simp only [h2, Option.bind]
      cases h4 : braceSpan t.data with
      | some b =>
        simp only [h4, Option.bind]
        cases h5 : jsonLoadsL b with
        | some v => simp only [h5]
        | none => simp only [h5]
      | none => simp only [h4, Option.bind]

/-! ### C2: field availability of the returned object -/

/-- C2 (refuted as stated): the string `"{}"` parses as a JSON object, is
returned as-is, and the returned object has none of the `AnalysisResult`
fields (in particular not `score`). -/
theorem C2_counterexample :
    parse_ai_response "\x7b\x7d" = Json.obj [] ∧
    hasAnalysisFields (parse_ai_response "\x7b\x7d") = false ∧
    jsonHasKey (parse_ai_response "\x7b\x7d") "score" = false :=
  ⟨rfl, rfl, rfl⟩

/-- C2 (amended): whenever the upstream text cannot be parsed by any of the
three strategies, the returned object is the fallback instance and carries
all six `AnalysisResult` fields; the normalizer always returns a value (see
C1), but an object recovered by a successful parse is returned as-is and may
lack fields. -/
theorem C2_amended_fields_present_on_parse_failure (t : String)
    (h1 : jsonLoadsL t.toList = none)
    (h2 : (fencedGroup t.toList).bind jsonLoadsL = none)
    (h3 : (braceSpan t.toList).bind jsonLoadsL = none) :
    parse_ai_response t = fallback_response ∧
    hasAnalysisFields (parse_ai_response t) = true := by
  have h := parse_fallback_of_all_fail t h1 h2 h3
  exact ⟨h, by rw [h]; rfl⟩

/-- Witness for C2 (amended) at concrete unparseable prose. -/
theorem C2_amended_witness :
    parse_ai_response "totally unparseable reply" = fallback_response ∧
    hasAnalysisFields (parse_ai_response "totally unparseable reply") = true :=
  C2_amended_fields_present_on_parse_failure "totally unparseable reply" rfl rfl rfl

/-! ### C3: the direct-parse path returns a JSON object as-is -/

/-- C3 (confirmed). Any string whose whole text parses as a JSON object is
returned exactly as that object, with no schema validation beyond being an
object — in particular an object missing every `AnalysisResult` field. -/
theorem C3_direct_parse_returns_object_as_is (s : String)
    (m : List (String × Json)) (h : jsonLoadsL s.toList = some (Json.obj m)) :
    parse_ai_response s = Json.obj m :=
  parse_direct_of_loads s (Json.obj m) h

/-- Witness for C3 at a schema-incomplete object. -/
theorem C3_witness :
    jsonLoadsL ("\x7b\"a\": 1\x7d".toList) = some (Json.obj [("a", Json.int 1)]) ∧
    parse_ai_response "\x7b\"a\": 1\x7d" = Json.obj [("a", Json.int 1)] :=
  ⟨rfl, C3_direct_parse_returns_object_as_is "\x7b\"a\": 1\x7d" [("a", Json.int 1)] rfl⟩

/-! ### C10: a non-object JSON value is returned itself -/

/-- C10 (confirmed). Any string whose whole text parses as a JSON value that
is not an object — a list, number, string, boolean or null — is returned as
that value itself, not as the fallback and not as an object. -/
theorem C10_direct_parse_non_object_returned (s : String) (v : Json)
    (h : jsonLoadsL s.toList = some v) (_hv : jsonIsObj v = false) :
    parse_ai_response s = v :=
  parse_direct_of_loads s v h

/-- Witness for C10 at the list `[1, 2]`. -/
theorem C10_witness :
    jsonLoadsL ("[1, 2]".toList) = some (Json.arr [Json.int 1, Json.int 2]) ∧
    jsonIsObj (Json.arr [Json.int 1, Json.int 2]) = false ∧
    parse_ai_response "[1, 2]" = Json.arr [Json.int 1, Json.int 2] :=
  ⟨rfl, rfl, C10_direct_parse_non_object_returned "[1, 2]" (Json.arr [Json.int 1, Json.int 2]) rfl rfl⟩

/-! ### C6: the fallback literal -/

/-- C6 (confirmed). When the whole text is not valid JSON, no fenced-block
content parses, and no brace span parses, the normalizer returns exactly the
fixed fallback object with the literal field values of the source. -/
theorem C6_all_fail_yields_fallback_literal (t : String)
    (h1 : jsonLoadsL t.toList = none)
    (h2 : (fencedGroup t.toList).bind jsonLoadsL = none)
    (h3 : (braceSpan t.toList).bind jsonLoadsL = none) :
    parse_ai_response t = Json.obj [
      ("score", Json.int 50),
      ("summary", Json.str "Unable to fully parse the AI response. Please try again."),
      ("bugs", Json.arr []),
      ("optimizations", Json.arr []),
      ("positives", Json.arr [Json.str "Code was submitted successfully"]),
      ("metrics", Json.obj [
        ("complexity", Json.str "medium"),
        ("readability", Json.int 50),
        ("maintainability", Json.int 50),
        ("security", Json.int 50)])] :=
  parse_fallback_of_all_fail t h1 h2 h3

/-- Witness for C6 at brace-free non-JSON prose. -/
theorem C6_witness :
    parse_ai_response "plain prose with no braces at all" = Json.obj [
      ("score", Json.int 50),
      ("summary", Json.str "Unable to fully parse the AI response. Please try again."),
      ("bugs", Json.arr []),
      ("optimizations", Json.arr []),
      ("positives", Json.arr [Json.str "Code was submitted successfully"]),
      ("metrics", Json.obj [
        ("complexity", Json.str "medium"),
        ("readability", Json.int 50),
        ("maintainability", Json.int 50),
        ("security", Json.int 50)])] :=
  C6_all_fail_yields_fallback_literal "plain prose with no braces at all" rfl rfl rfl

/-! ### C9: persistence failures never affect the analysis response -/

/-- C9 (confirmed). On the analyze endpoint with a `user_id`, when the
database-save block raises, the endpoint still returns the already-computed
result unchanged as a success response. -/
theorem C9_persistence_failure_isolated (result : Json) (uid : Nat) (msg : String) :
    analyze_response result (some uid) (DbOutcome.failed msg) =
      ApiResponse.success result :=
  rfl

/-! ### C7: language coercion at the endpoints -/

/-- C7 (refuted as stated): the generate endpoint performs no
supported-language coercion — for the unsupported language `"brainfuck"` it
renders the generation prompt with `"brainfuck"` and echoes `"brainfuck"`
back, not the default `"python"`. -/
theorem C7_counterexample :
    supported_languages.contains "brainfuck" = false ∧
    (generate_code_data "write fizzbuzz" "brainfuck" "print(1)").language = "brainfuck" ∧
    generate_prompt "write fizzbuzz" "brainfuck" =
      buildGenerationPrompt "write fizzbuzz" "brainfuck" ∧
    (generate_code_data "write fizzbuzz" "brainfuck" "print(1)").language ≠ "python" :=
  ⟨rfl, rfl, rfl, by decide⟩

/-- C7 (amended): the analyze endpoint coerces any language outside the
supported set to `"python"` before prompt rendering, and renders the prompt
with the coerced value; the generate endpoint performs no coercion — it uses
and echoes the lowercased request value as-is. -/
theorem C7_amended_coercion_only_on_analyze :
    (∀ raw : String, supported_languages.contains (pyLower raw) = false →
      analyze_language raw = "python" ∧
      analyze_prompt raw "x = 1" = buildAnalysisPrompt "python" "x = 1") ∧
    (∀ p raw reply : String,
      (generate_code_data p raw reply).language = pyLower raw ∧
      generate_prompt p raw = buildGenerationPrompt p (pyLower raw)) := by
  constructor
  · intro raw h
    have hl : analyze_language raw = "python" := by
      simp only [analyze_language]
      rw [h]
      simp
    exact ⟨hl, by unfold analyze_prompt; rw [hl]⟩
  · intro p raw reply
    exact ⟨rfl, rfl⟩

/-- Witness for C7 (amended) at `"brainfuck"` on analyze and `"C"` on
generate. -/
theorem C7_amended_witness :
    analyze_language "brainfuck" = "python" ∧
    (generate_code_data "p" "C" "r").language = "c" :=
  ⟨(C7_amended_coercion_only_on_analyze.1 "brainfuck" (by decide)).1,
    ((C7_amended_coercion_only_on_analyze.2 "p" "C" "r").1).trans (by decide)⟩

/-! ### C8: the generation-path fence stripper -/

/-- Python `str.split` never returns an empty list. -/
theorem splitNl_ne_nil : ∀ cs : List Char, splitNl cs ≠ []
  | [] => by simp [splitNl]
  | c :: t => by
    simp only [splitNl]
    split
    · simp
    · split <;> simp

/-- Splitting distributes over a separator occurrence. -/
theorem splitNl_append_nl : ∀ xs ys : List Char,
    splitNl (xs ++ '\n' :: ys) = splitNl xs ++ splitNl ys
  | [], ys => by simp [splitNl]
  | c :: xs, ys => by
    by_cases hc : c = '\n'
    · subst hc
      simp [splitNl, splitNl_append_nl xs ys]
    · have ih := splitNl_append_nl xs ys
      cases h : splitNl xs with
      | nil => exact absurd h (splitNl_ne_nil xs)
      | cons a r =>
        rw [h] at ih
        show splitNl (c :: (xs ++ '\n' :: ys)) = _
        simp only [splitNl, if_neg hc, ih, h]
        simp

/-- A newline-free text splits into the single line it is. -/
theorem splitNl_no_nl : ∀ xs : List Char, (∀ c ∈ xs, c ≠ '\n') → splitNl xs = [xs]
  | [], _ => rfl
  | c :: t, h => by
    have hc : c ≠ '\n' := h c (by simp)
    have ht := splitNl_no_nl t (fun d hd => h d (by simp [hd]))
    simp [splitNl, if_neg hc, ht]

/-- Unfolding equation: joining a single line. -/
theorem joinNl_single (l : List Char) : joinNl [l] = l := rfl

/-- Unfolding equation: joining at least two lines. -/
theorem joinNl_cons2 (l a : List Char) (r : List (List Char)) :
    joinNl (l :: a :: r) = l ++ '\n' :: joinNl (a :: r) := rfl

/-- Joining undoes splitting. -/
theorem joinNl_splitNl : ∀ cs : List Char, joinNl (splitNl cs) = cs
  | [] => rfl
  | c :: t => by
    by_cases hc : c = '\n'
    · subst hc
      have e : splitNl ('\n' :: t) = [] :: splitNl t := by simp [splitNl]
      rw [e]
      cases h : splitNl t with
      | nil => exact absurd h (splitNl_ne_nil t)
      | cons a r =>
        have ht := joinNl_splitNl t
        rw [h] at ht
        rw [joinNl_cons2]
        simp [ht]
    · simp only [splitNl, if_neg hc]
      cases h : splitNl t with
      | nil => exact absurd h (splitNl_ne_nil t)
      | cons a r =>
        have ht := joinNl_splitNl t
        rw [h] at ht
        cases r with
        | nil =>
          rw [joinNl_single] at ht
          rw [joinNl_single, ht]
        | cons b r2 =>
          rw [joinNl_cons2] at ht
          rw [joinNl_cons2, List.cons_append, ht]

/-- Joining distributes over appending nonempty line lists. -/
theorem joinNl_append : ∀ l1 l2 : List (List Char), l1 ≠ [] → l2 ≠ [] →
    joinNl (l1 ++ l2) = joinNl l1 ++ '\n' :: joinNl l2
  | [], _, h1, _ => absurd rfl h1
  | [a], l2, _, h2 => by
    cases l2 with
    | nil => exact absurd rfl h2
    | cons b r => rw [joinNl_single, List.cons_append, List.nil_append, joinNl_cons2]
  | a :: b :: t, l2, _, h2 => by
    have ih := joinNl_append (b :: t) l2 (by simp) h2
    rw [show ((a :: b :: t) ++ l2) = a :: (b :: (t ++ l2)) from rfl]
    rw [show ((b :: t) ++ l2 : List (List Char)) = b :: (t ++ l2) from rfl] at ih
    rw [joinNl_cons2, ih, joinNl_cons2, List.append_assoc, List.cons_append]

/-- Appending distributes over `String.toList`. -/
theorem strToList_append (a b : String) : (a ++ b).toList = a.toList ++ b.toList :=
  String.data_append a b

/-- C8 (refuted as stated): on a fenced reply followed by a trailing newline,
the last line is empty, so the code checks `lines[-1].strip() == "```"`
against the empty line and keeps the closing fence: the last non-empty line
is exactly a closing fence, yet the output still contains it. -/
theorem C8_counterexample :
    stripCodeFence "```python\nprint(1)\n```\n" = "print(1)\n```\n" ∧
    ((splitNl ("```python\nprint(1)\n```\n".toList)).filter
      (fun l => !l.isEmpty)).getLastD [] = ['\x60', '\x60', '\x60'] ∧
    containsTriple ("print(1)\n```\n".toList) = true :=
  ⟨rfl, rfl, rfl⟩

/-- C8 (amended): if the reply begins with a triple-backtick fence, the first
line is stripped; the last line is stripped as well exactly when that line,
ignoring surrounding whitespace, is a closing triple backtick — a closing
fence followed by a trailing newline (empty last line) is kept. Unfenced text
passes through unchanged. -/
theorem C8_amended_fence_stripper :
    (∀ tag body : String, (∀ c ∈ tag.toList, c ≠ '\n') →
      stripCodeFence ("```" ++ tag ++ "\n" ++ body ++ "\n```") = body) ∧
    (∀ t : String, ['\x60', '\x60', '\x60'].isPrefixOf t.toList = false →
      stripCodeFence t = t) ∧
    (∀ tag body : String, (∀ c ∈ tag.toList, c ≠ '\n') →
      stripCodeFence ("```" ++ tag ++ "\n" ++ body ++ "\n```\n") = body ++ "\n```\n") := by
  have hX : ∀ (tag : String), (∀ c ∈ tag.toList, c ≠ '\n') →
      ∀ c ∈ ('\x60' :: '\x60' :: '\x60' :: tag.toList), c ≠ '\n' := by
    intro tag hnl c hc
    simp only [List.mem_cons] at hc
    rcases hc with rfl | rfl | rfl | hc
    · decide
    · decide
    · decide
    · exact hnl c hc
  refine ⟨?_, ?_, ?_⟩
  · intro tag body hnl
    have hcs : ("```" ++ tag ++ "\n" ++ body ++ "\n```").toList
        = ('\x60' :: '\x60' :: '\x60' :: tag.toList) ++
          '\n' :: (body.toList ++ '\n' :: ['\x60', '\x60', '\x60']) := by
      simp only [strToList_append]
      show ['\x60', '\x60', '\x60'] ++ tag.toList ++ ['\n'] ++ body.toList ++
        ['\n', '\x60', '\x60', '\x60'] = _
      simp
    have hsplit : splitNl (('\x60' :: '\x60' :: '\x60' :: tag.toList) ++
          '\n' :: (body.toList ++ '\n' :: ['\x60', '\x60', '\x60']))
        = ('\x60' :: '\x60' :: '\x60' :: tag.toList) ::
          (splitNl body.toList ++ [['\x60', '\x60', '\x60']]) := by
      rw [splitNl_append_nl, splitNl_append_nl,
        splitNl_no_nl ('\x60' :: '\x60' :: '\x60' :: tag.toList) (hX tag hnl),
        splitNl_no_nl ['\x60', '\x60', '\x60'] (by decide)]
      rfl
    have hpre : ['\x60', '\x60', '\x60'].isPrefixOf
        (('\x60' :: '\x60' :: '\x60' :: tag.toList) ++
          '\n' :: (body.toList ++ '\n' :: ['\x60', '\x60', '\x60'])) = true := by
      simp [List.isPrefixOf]
    simp only [stripCodeFence]
    rw [hcs, if_pos hpre, hsplit]
    rw [show (('\x60' :: '\x60' :: '\x60' :: tag.toList) ::
          (splitNl body.toList ++ [['\x60', '\x60', '\x60']]))
        = ((('\x60' :: '\x60' :: '\x60' :: tag.toList) :: splitNl body.toList) ++
          [['\x60', '\x60', '\x60']]) from by simp]
    rw [List.getLastD_concat]
    rw [if_pos (by decide :
      pyStripL ['\x60', '\x60', '\x60'] = ['\x60', '\x60', '\x60'])]
    rw [show ((('\x60' :: '\x60' :: '\x60' :: tag.toList) :: splitNl body.toList) ++
          [['\x60', '\x60', '\x60']]).drop 1
        = splitNl body.toList ++ [['\x60', '\x60', '\x60']] from by simp]
    rw [List.dropLast_concat, joinNl_splitNl]
    rfl
  · intro t h
    simp only [stripCodeFence]
    rw [h]
    simp
  · intro tag body hnl
    have hcs : ("```" ++ tag ++ "\n" ++ body ++ "\n```\n").toList
        = ('\x60' :: '\x60' :: '\x60' :: tag.toList) ++
          '\n' :: (body.toList ++ '\n' :: (['\x60', '\x60', '\x60'] ++ '\n' :: [])) := by
      simp only [strToList_append]
      show ['\x60', '\x60', '\x60'] ++ tag.toList ++ ['\n'] ++ body.toList ++
        ['\n', '\x60', '\x60', '\x60', '\n'] = _
      simp
    have hsplit : splitNl (('\x60' :: '\x60' :: '\x60' :: tag.toList) ++
          '\n' :: (body.toList ++ '\n' :: (['\x60', '\x60', '\x60'] ++ '\n' :: [])))
        = ('\x60' :: '\x60' :: '\x60' :: tag.toList) ::
          (splitNl body.toList ++ [['\x60', '\x60', '\x60'], []]) := by
      rw [splitNl_append_nl, splitNl_append_nl, splitNl_append_nl,
        splitNl_no_nl ('\x60' :: '\x60' :: '\x60' :: tag.toList) (hX tag hnl),
        splitNl_no_nl ['\x60', '\x60', '\x60'] (by decide)]
      rfl
    have hpre : ['\x60', '\x60', '\x60'].isPrefixOf
        (('\x60' :: '\x60' :: '\x60' :: tag.toList) ++
          '\n' :: (body.toList ++ '\n' :: (['\x60', '\x60', '\x60'] ++ '\n' :: []))) = true := by
      simp [List.isPrefixOf]
    simp only [stripCodeFence]
    rw [hcs, if_pos hpre, hsplit]
    rw [show (('\x60' :: '\x60' :: '\x60' :: tag.toList) ::
          (splitNl body.toList ++ [['\x60', '\x60', '\x60'], []]))
        = (((('\x60' :: '\x60' :: '\x60' :: tag.toList) :: splitNl body.toList) ++
          [['\x60', '\x60', '\x60']]) ++ [[]]) from by simp]
    rw [List.getLastD_concat]
    rw [if_neg (by decide : ¬ (pyStripL ([] : List Char) = ['\x60', '\x60', '\x60']))]
    have hdrop : (((('\x60' :: '\x60' :: '\x60' :: tag.toList) :: splitNl body.toList) ++
          [['\x60', '\x60', '\x60']]) ++ [[]]).drop 1
        = splitNl body.toList ++ [['\x60', '\x60', '\x60'], []] := by
      rw [List.append_assoc, List.cons_append, List.drop_one, List.tail_cons]
      rfl
    rw [hdrop]
    rw [joinNl_append (splitNl body.toList) [['\x60', '\x60', '\x60'], []]
      (splitNl_ne_nil body.toList) (by simp), joinNl_splitNl]
    rw [show joinNl [['\x60', '\x60', '\x60'], []] = ['\x60', '\x60', '\x60', '\n'] from rfl]
    have hfin : body.toList ++ '\n' :: ['\x60', '\x60', '\x60', '\n']
        = (body ++ "\n```\n").toList := by
      rw [strToList_append]
      rfl
    rw [hfin]
    rfl

/-- Witness for C8 (amended) at the two examples named by the claim. -/
theorem C8_amended_witness :
    stripCodeFence "```python\nprint(1)\n```" = "print(1)" ∧
    stripCodeFence "print(1)" = "print(1)" :=
  ⟨by
    have h := C8_amended_fence_stripper.1 "python" "print(1)" (by decide)
    simpa using h,
   C8_amended_fence_stripper.2.1 "print(1)" rfl⟩

/-! ### Consumption geometry of successful scans -/

/-- `suf` is a suffix of `cs`. -/
def hasSuffix (cs suf : List Char) : Prop := ∃ pre, cs = pre ++ suf

/-- Suffix of itself. -/
theorem hasSuffix_refl (cs : List Char) : hasSuffix cs cs := ⟨[], rfl⟩

/-- Suffixes compose. -/
theorem hasSuffix_trans {a b c : List Char} (h1 : hasSuffix a b)
    (h2 : hasSuffix b c) : hasSuffix a c := by
  obtain ⟨p, rfl⟩ := h1
  obtain ⟨q, rfl⟩ := h2
  exact ⟨p ++ q, by simp⟩

/-- A suffix stays a suffix under a front extension. -/
theorem hasSuffix_cons (c : Char) {t s : List Char} (h : hasSuffix t s) :
    hasSuffix (c :: t) s := by
  obtain ⟨p, rfl⟩ := h
  exact ⟨c :: p, rfl⟩

/-- The tail is a suffix. -/
theorem hasSuffix_cons_self (c : Char) (t : List Char) : hasSuffix (c :: t) t :=
  ⟨[c], rfl⟩

/-- Whitespace skipping reaches a suffix. -/
theorem hasSuffix_skipWs (cs : List Char) : hasSuffix cs (skipWs cs) :=
  ⟨cs.takeWhile isJsonWs, (List.takeWhile_append_dropWhile isJsonWs cs).symm⟩

/-- A boolean prefix makes the input its concatenation with the dropped rest. -/
theorem prefix_drop {l cs : List Char} (h : l.isPrefixOf cs = true) :
    cs = l ++ cs.drop l.length := by
  obtain ⟨t, rfl⟩ := List.isPrefixOf_iff_prefix.mp h
  simp

/-- A digit is not Python whitespace and not a backtick. -/
theorem digit_good {c : Char} (h : isDigitCh c = true) :
    isPyWs c = false ∧ c ≠ '\x60' := by
  rw [isDigitCh, decide_eq_true_eq] at h
  simp only [List.mem_cons, List.not_mem_nil, or_false] at h
  rcases h with rfl | rfl | rfl | rfl | rfl | rfl | rfl | rfl | rfl | rfl <;>
    exact ⟨by decide, by decide⟩

/-- A nonempty all-digit list ends in a digit. -/
theorem digits_last_decomp : ∀ (A : List Char), A ≠ [] →
    (∀ x ∈ A, isDigitCh x = true) → ∃ pre c, A = pre ++ [c] ∧ isDigitCh c = true
  | [], h, _ => absurd rfl h
  | [a], _, hd => ⟨[], a, rfl, hd a (by simp)⟩
  | a :: b :: t, _, hd => by
    obtain ⟨pre, c, he, hc⟩ :=
      digits_last_decomp (b :: t) (by simp) (fun x hx => hd x (by simp [hx]))
    exact ⟨a :: pre, c, by rw [he]; rfl, hc⟩

/-- Every successful value scan starts at a character that is neither
whitespace nor a backtick (the dispatch characters of the scanner). -/
theorem parseVal_head : ∀ f cs r, parseVal f cs = some r →
    ∃ c cs', cs = c :: cs' ∧ isPyWs c = false ∧ c ≠ '\x60' := by
  intro f cs r h
  match f, cs with
  | 0, cs => simp [parseVal] at h
  | Nat.succ f, [] => simp [parseVal] at h
  | Nat.succ f, c :: rest =>
    refine ⟨c, rest, rfl, ?_⟩
    by_cases h1 : c = 'n'
    · subst h1; exact ⟨by decide, by decide⟩
    by_cases h2 : c = 't'
    · subst h2; exact ⟨by decide, by decide⟩
    by_cases h3 : c = 'f'
    · subst h3; exact ⟨by decide, by decide⟩
    by_cases h4 : c = 'N'
    · subst h4; exact ⟨by decide, by decide⟩
    by_cases h5 : c = 'I'
    · subst h5; exact ⟨by decide, by decide⟩
    by_cases h6 : c = '-'
    · subst h6; exact ⟨by decide, by decide⟩
    by_cases h7 : c = '"'
    · subst h7; exact ⟨by decide, by decide⟩
    by_cases h8 : c = '\x7b'
    · subst h8; exact ⟨by decide, by decide⟩
    by_cases h9 : c = '['
    · subst h9; exact ⟨by decide, by decide⟩
    by_cases h10 : isDigitCh c = true
    · exact digit_good h10
    · exfalso
      simp [parseVal, h1, h2, h3, h4, h5, h6, h7, h8, h9, h10] at h

/-- A suffix stays a suffix under any front extension. -/
theorem hasSuffix_append_left (p : List Char) {t s : List Char}
    (h : hasSuffix t s) : hasSuffix (p ++ t) s := by
  obtain ⟨q, rfl⟩ := h
  exact ⟨p ++ q, by simp⟩

/-- Unfolding a nonempty whitespace skip into a suffix fact. -/
theorem hasSuffix_skip_eq {cs : List Char} {c : Char} {r : List Char}
    (hsw : skipWs cs = c :: r) : hasSuffix cs (c :: r) := by
  have h := hasSuffix_skipWs cs
  rwa [hsw] at h

/-- The integer part is a nonempty digit prefix of its input. -/
theorem lexInt_split {tail A rest : List Char} (h : lexInt tail = some (A, rest)) :
    tail = A ++ rest ∧ A ≠ [] ∧ ∀ x ∈ A, isDigitCh x = true := by
  match tail with
  | [] => simp [lexInt] at h
  | c :: t =>
    simp only [lexInt] at h
    by_cases h0 : c = '0'
    · rw [if_pos h0] at h
      simp only [Option.some.injEq, Prod.mk.injEq] at h
      obtain ⟨hA, hrest⟩ := h
      subst hA
      subst hrest
      exact ⟨rfl, by simp, by intro x hx; simp at hx; subst hx; subst h0; decide⟩
    · rw [if_neg h0] at h
      by_cases hd : isDigitCh c = true
      · rw [if_pos hd] at h
        simp only [Option.some.injEq, Prod.mk.injEq] at h
        obtain ⟨hA, hrest⟩ := h
        subst hA
        subst hrest
        refine ⟨(List.takeWhile_append_dropWhile isDigitCh (c :: t)).symm, ?_, ?_⟩
        · rw [List.takeWhile_cons_of_pos hd]
          simp
        · intro x hx
          exact List.mem_takeWhile_imp hx
      · rw [if_neg hd] at h
        simp at h

/-- The fraction part splits its input and, when present, is a dot followed
by a nonempty digit run. -/
theorem lexFrac_split (cs : List Char) :
    cs = (lexFrac cs).1 ++ (lexFrac cs).2 ∧
      ((lexFrac cs).1 = [] ∨
        ∃ D, (lexFrac cs).1 = '.' :: D ∧ D ≠ [] ∧ ∀ x ∈ D, isDigitCh x = true) := by
  match cs with
  | [] => simp [lexFrac]
  | c :: t2 =>
    by_cases hc : c = '.'
    · subst hc
      simp only [lexFrac, if_pos rfl]
      by_cases he : (t2.takeWhile isDigitCh) = []
      · rw [if_pos he]
        simp
      · rw [if_neg he]
        refine ⟨?_, Or.inr ⟨_, rfl, he, fun x hx => List.mem_takeWhile_imp hx⟩⟩
        simp [List.takeWhile_append_dropWhile]
    · simp only [lexFrac, if_neg hc]
      simp

/-- The exponent part splits its input and, when present, ends in a digit. -/
theorem lexExp_split (cs : List Char) :
    cs = (lexExp cs).1 ++ (lexExp cs).2 ∧
      ((lexExp cs).1 = [] ∨
        ∃ pre d, (lexExp cs).1 = pre ++ [d] ∧ isDigitCh d = true) := by
  match cs with
  | [] => simp [lexExp]
  | e :: t3 =>
    match t3 with
    | [] =>
      simp only [lexExp]
      by_cases he : e = 'e' ∨ e = 'E'
      · rw [if_pos he]
        simp
      · rw [if_neg he]
        simp
    | s :: t4 =>
      simp only [lexExp]
      by_cases he : e = 'e' ∨ e = 'E'
      · rw [if_pos he]
        by_cases hs : s = '+' ∨ s = '-'
        · rw [if_pos hs]
          by_cases hd : (t4.takeWhile isDigitCh) = []
          · rw [if_pos hd]
            simp
          · rw [if_neg hd]
            obtain ⟨pre, d, hD, hdd⟩ :=
              digits_last_decomp (t4.takeWhile isDigitCh) hd
                (fun x hx => List.mem_takeWhile_imp hx)
            refine ⟨?_, Or.inr ⟨e :: s :: pre, d, by simp [hD], hdd⟩⟩
            simp [List.takeWhile_append_dropWhile]
        · rw [if_neg hs]
          by_cases hsd : isDigitCh s = true
          · rw [if_pos hsd]
            have hne : (s :: t4).takeWhile isDigitCh ≠ [] := by
              rw [List.takeWhile_cons_of_pos hsd]
              simp
            obtain ⟨pre, d, hD, hdd⟩ :=
              digits_last_decomp ((s :: t4).takeWhile isDigitCh) hne
                (fun x hx => List.mem_takeWhile_imp hx)
            refine ⟨?_, Or.inr ⟨e :: pre, d, by simp [hD], hdd⟩⟩
            simp [List.takeWhile_append_dropWhile]
          · rw [if_neg hsd]
            simp
      · rw [if_neg he]
        simp

/-- A successful number scan consumes a chunk ending in a digit. -/
theorem parseNumberCore_split {neg : Bool} {tail : List Char} {v : Json}
    {rest : List Char} (h : parseNumberCore neg tail = some (v, rest)) :
    ∃ c, isDigitCh c = true ∧ hasSuffix tail (c :: rest) := by
  rw [parseNumberCore] at h
  cases hli : lexInt tail with
  | none => rw [hli] at h; simp at h
  | some p =>
    obtain ⟨A, afterInt⟩ := p
    rw [hli] at h
    simp only at h
    obtain ⟨hti, hAne, hAd⟩ := lexInt_split hli
    obtain ⟨F, r2, hF⟩ : ∃ F r2, lexFrac afterInt = (F, r2) := ⟨_, _, rfl⟩
    have hfrs := lexFrac_split afterInt
    rw [hF] at hfrs h
    obtain ⟨E, r3, hE2⟩ : ∃ E r3, lexExp r2 = (E, r3) := ⟨_, _, rfl⟩
    have hexs := lexExp_split r2
    rw [hE2] at hexs h
    simp only at hfrs hexs h
    obtain ⟨hfr, hfrc⟩ := hfrs
    obtain ⟨hex, hexc⟩ := hexs
    by_cases hif : F = [] ∧ E = []
    · rw [if_pos hif] at h
      simp only [Option.some.injEq, Prod.mk.injEq] at h
      obtain ⟨hv, hrest⟩ := h
      subst hrest
      obtain ⟨preA, c, hAe, hcd⟩ := digits_last_decomp A hAne hAd
      refine ⟨c, hcd, preA, ?_⟩
      rw [hti, hAe]
      simp
    · rw [if_neg hif] at h
      simp only [Option.some.injEq, Prod.mk.injEq] at h
      obtain ⟨hv, hrest⟩ := h
      subst hrest
      rcases hexc with hexe | ⟨preE, d, hEe, hdd⟩
      · have hfne : F ≠ [] := fun hq => hif ⟨hq, hexe⟩
        rcases hfrc with hfe | ⟨D, hD, hDne, hDd⟩
        · exact absurd hfe hfne
        obtain ⟨preD, d, hDe, hdd⟩ := digits_last_decomp D hDne hDd
        refine ⟨d, hdd, A ++ '.' :: preD, ?_⟩
        subst hexe
        simp only [List.nil_append] at hex
        rw [hti, hfr, hD, hDe, hex]
        simp
      · refine ⟨d, hdd, A ++ F ++ preE, ?_⟩
        rw [hti, hfr, hex, hEe]
        simp

/-- A successful number scan consumes a chunk of its input ending in a
digit. -/
theorem parseNumber_split {cs : List Char} {v : Json} {rest : List Char}
    (h : parseNumber cs = some (v, rest)) :
    ∃ c, isDigitCh c = true ∧ hasSuffix cs (c :: rest) := by
  match cs with
  | [] => simp [parseNumber, parseNumberCore, lexInt] at h
  | c0 :: t =>
    simp only [parseNumber] at h
    by_cases hm : c0 = '-'
    · rw [if_pos hm] at h
      obtain ⟨c, hcd, hsuf⟩ := parseNumberCore_split h
      exact ⟨c, hcd, hasSuffix_cons c0 hsuf⟩
    · rw [if_neg hm] at h
      exact parseNumberCore_split h

/-- A consumed keyword with a known last character yields a suffix fact. -/
theorem cons_prefix_suffix {rest0 L : List Char} {c0 d : Char}
    (hp : L.isPrefixOf rest0 = true) (hL : ∃ p, L = p ++ [d]) :
    hasSuffix (c0 :: rest0) (d :: rest0.drop L.length) := by
  obtain ⟨p, hpd⟩ := hL
  have hd := prefix_drop hp
  refine ⟨c0 :: p, ?_⟩
  conv_lhs => rw [hd]
  rw [hpd]
  simp

/-- A successful string-body scan consumes up to a closing quote. -/
theorem parseStrBody_split : ∀ f cs acc content rest,
    parseStrBody f cs acc = some (content, rest) → hasSuffix cs ('"' :: rest)
  | 0, cs, acc, content, rest, h => by simp [parseStrBody] at h
  | Nat.succ f, cs, acc, content, rest, h => by
    cases cs with
    | nil => simp [parseStrBody] at h
    | cons c r =>
      simp only [parseStrBody] at h
      by_cases hq : c = '"'
      · rw [if_pos hq] at h
        simp only [Option.some.injEq, Prod.mk.injEq] at h
        obtain ⟨hc, hr⟩ := h
        subst hr
        subst hq
        exact ⟨[], rfl⟩
      · rw [if_neg hq] at h
        by_cases hb : c = '\\'
        · rw [if_pos hb] at h
          cases r with
          | nil => simp at h
          | cons e r1 =>
            simp only at h
            by_cases hu : e = 'u'
            · rw [if_pos hu] at h
              rcases r1 with _ | ⟨h1, _ | ⟨h2, _ | ⟨h3, _ | ⟨h4, r2⟩⟩⟩⟩
              · simp at h
              · simp at h
              · simp at h
              · simp at h
              · simp only at h
                cases hx : hex4 h1 h2 h3 h4 with
                | none => rw [hx] at h; simp at h
                | some n =>
                  rw [hx] at h
                  simp only at h
                  by_cases hhi : 0xD800 ≤ n ∧ n ≤ 0xDBFF
                  · rw [if_pos hhi] at h
                    rcases r2 with _ | ⟨b1, _ | ⟨b2, _ | ⟨g1, _ | ⟨g2, _ | ⟨g3, _ | ⟨g4, r3⟩⟩⟩⟩⟩⟩
                    · exact hasSuffix_append_left [c, e, h1, h2, h3, h4]
                        (parseStrBody_split f _ _ _ _ (by simpa using h))
                    · exact hasSuffix_append_left [c, e, h1, h2, h3, h4]
                        (parseStrBody_split f _ _ _ _ (by simpa using h))
                    · exact hasSuffix_append_left [c, e, h1, h2, h3, h4]
                        (parseStrBody_split f _ _ _ _ (by simpa using h))
                    · exact hasSuffix_append_left [c, e, h1, h2, h3, h4]
                        (parseStrBody_split f _ _ _ _ (by simpa using h))
                    · exact hasSuffix_append_left [c, e, h1, h2, h3, h4]
                        (parseStrBody_split f _ _ _ _ (by simpa using h))
                    · exact hasSuffix_append_left [c, e, h1, h2, h3, h4]
                        (parseStrBody_split f _ _ _ _ (by simpa using h))
                    · simp only at h
                      by_cases hbu : b1 = '\\' ∧ b2 = 'u'
                      · rw [if_pos hbu] at h
                        cases hy : hex4 g1 g2 g3 g4 with
                        | none =>
                          rw [hy] at h
                          exact hasSuffix_append_left [c, e, h1, h2, h3, h4]
                            (parseStrBody_split f _ _ _ _ h)
                        | some m =>
                          rw [hy] at h
                          simp only at h
                          by_cases hlo : 0xDC00 ≤ m ∧ m ≤ 0xDFFF
                          · rw [if_pos hlo] at h
                            exact hasSuffix_append_left
                              [c, e, h1, h2, h3, h4, b1, b2, g1, g2, g3, g4]
                              (parseStrBody_split f _ _ _ _ h)
                          · rw [if_neg hlo] at h
                            exact hasSuffix_append_left [c, e, h1, h2, h3, h4]
                              (parseStrBody_split f _ _ _ _ h)
                      · rw [if_neg hbu] at h
                        exact hasSuffix_append_left [c, e, h1, h2, h3, h4]
                          (parseStrBody_split f _ _ _ _ h)
                  · rw [if_neg hhi] at h
                    exact hasSuffix_append_left [c, e, h1, h2, h3, h4]
                      (parseStrBody_split f _ _ _ _ h)
            · rw [if_neg hu] at h
              cases hse : simpleEscape e with
              | none => rw [hse] at h; simp at h
              | some d =>
                rw [hse] at h
                exact hasSuffix_append_left [c, e] (parseStrBody_split f _ _ _ _ h)
        · rw [if_neg hb] at h
          by_cases hctl : c.toNat < 0x20
          · rw [if_pos hctl] at h
            simp at h
          · rw [if_neg hctl] at h
            exact hasSuffix_append_left [c] (parseStrBody_split f _ _ _ _ h)

mutual

/-- A successful value scan consumes a nonempty chunk ending in a character
that is neither whitespace nor a backtick. -/
theorem parseVal_split : ∀ f cs v rest, parseVal f cs = some (v, rest) →
    ∃ c, isPyWs c = false ∧ c ≠ '\x60' ∧ hasSuffix cs (c :: rest)
  | 0, cs, v, rest, h => by simp [parseVal] at h
  | Nat.succ f, cs, v, rest, h => by
    cases cs with
    | nil => simp [parseVal] at h
    | cons c0 rest0 =>
      simp only [parseVal] at h
      by_cases h1 : c0 = 'n'
      · rw [if_pos h1] at h
        by_cases hp : ['u', 'l', 'l'].isPrefixOf rest0 = true
        · rw [if_pos hp] at h
          simp only [Option.some.injEq, Prod.mk.injEq] at h
          obtain ⟨hv, hr⟩ := h
          subst hr
          exact ⟨'l', by decide, by decide, cons_prefix_suffix hp ⟨['u', 'l'], rfl⟩⟩
        · rw [if_neg hp] at h
          simp at h
      rw [if_neg h1] at h
      by_cases h2 : c0 = 't'
      · rw [if_pos h2] at h
        by_cases hp : ['r', 'u', 'e'].isPrefixOf rest0 = true
        · rw [if_pos hp] at h
          simp only [Option.some.injEq, Prod.mk.injEq] at h
          obtain ⟨hv, hr⟩ := h
          subst hr
          exact ⟨'e', by decide, by decide, cons_prefix_suffix hp ⟨['r', 'u'], rfl⟩⟩
        · rw [if_neg hp] at h
          simp at h
      rw [if_neg h2] at h
      by_cases h3 : c0 = 'f'
      · rw [if_pos h3] at h
        by_cases hp : ['a', 'l', 's', 'e'].isPrefixOf rest0 = true
        · rw [if_pos hp] at h
          simp only [Option.some.injEq, Prod.mk.injEq] at h
          obtain ⟨hv, hr⟩ := h
          subst hr
          exact ⟨'e', by decide, by decide, cons_prefix_suffix hp ⟨['a', 'l', 's'], rfl⟩⟩
        · rw [if_neg hp] at h
          simp at h
      rw [if_neg h3] at h
      by_cases h4 : c0 = 'N'
      · rw [if_pos h4] at h
        by_cases hp : ['a', 'N'].isPrefixOf rest0 = true
        · rw [if_pos hp] at h
          simp only [Option.some.injEq, Prod.mk.injEq] at h
          obtain ⟨hv, hr⟩ := h
          subst hr
          exact ⟨'N', by decide, by decide, cons_prefix_suffix hp ⟨['a'], rfl⟩⟩
        · rw [if_neg hp] at h
          simp at h
      rw [if_neg h4] at h
      by_cases h5 : c0 = 'I'
      · rw [if_pos h5] at h
        by_cases hp : ['n', 'f', 'i', 'n', 'i', 't', 'y'].isPrefixOf rest0 = true
        · rw [if_pos hp] at h
          simp only [Option.some.injEq, Prod.mk.injEq] at h
          obtain ⟨hv, hr⟩ := h
          subst hr
          exact ⟨'y', by decide, by decide,
            cons_prefix_suffix hp ⟨['n', 'f', 'i', 'n', 'i', 't'], rfl⟩⟩
        · rw [if_neg hp] at h
          simp at h
      rw [if_neg h5] at h
      by_cases h6 : c0 = '-'
      · rw [if_pos h6] at h
        by_cases hp : ['I', 'n', 'f', 'i', 'n', 'i', 't', 'y'].isPrefixOf rest0 = true
        · rw [if_pos hp] at h
          simp only [Option.some.injEq, Prod.mk.injEq] at h
          obtain ⟨hv, hr⟩ := h
          subst hr
          exact ⟨'y', by decide, by decide,
            cons_prefix_suffix hp ⟨['I', 'n', 'f', 'i', 'n', 'i', 't'], rfl⟩⟩
        · rw [if_neg hp] at h
          obtain ⟨c, hcd, hsuf⟩ := parseNumber_split h
          exact ⟨c, (digit_good hcd).1, (digit_good hcd).2, hsuf⟩
      rw [if_neg h6] at h
      by_cases h7 : c0 = '"'
      · rw [if_pos h7] at h
        cases hsb : parseStrBody f rest0 [] with
        | none => rw [hsb] at h; simp at h
        | some p =>
          obtain ⟨content, r⟩ := p
          rw [hsb] at h
          simp only [Option.some.injEq, Prod.mk.injEq] at h
          obtain ⟨hv, hr⟩ := h
          subst hr
          exact ⟨'"', by decide, by decide,
            hasSuffix_cons c0 (parseStrBody_split f rest0 [] content _ hsb)⟩
      rw [if_neg h7] at h
      by_cases h8 : c0 = '\x7b'
      · rw [if_pos h8] at h
        exact ⟨'\x7d', by decide, by decide,
          hasSuffix_cons c0 (parseObjBody_split f rest0 v rest h)⟩
      rw [if_neg h8] at h
      by_cases h9 : c0 = '['
      · rw [if_pos h9] at h
        exact ⟨']', by decide, by decide,
          hasSuffix_cons c0 (parseArrBody_split f rest0 v rest h)⟩
      rw [if_neg h9] at h
      by_cases h10 : isDigitCh c0 = true
      · rw [if_pos h10] at h
        obtain ⟨c, hcd, hsuf⟩ := parseNumber_split h
        exact ⟨c, (digit_good hcd).1, (digit_good hcd).2, hsuf⟩
      · rw [if_neg h10] at h
        simp at h

/-- A successful object scan consumes up to a closing brace. -/
theorem parseObjBody_split : ∀ f cs v rest, parseObjBody f cs = some (v, rest) →
    hasSuffix cs ('\x7d' :: rest)
  | 0, cs, v, rest, h => by simp [parseObjBody] at h
  | Nat.succ f, cs, v, rest, h => by
    simp only [parseObjBody] at h
    cases hsw : skipWs cs with
    | nil => rw [hsw] at h; simp at h
    | cons c r =>
      rw [hsw] at h
      simp only at h
      by_cases hc : c = '\x7d'
      · rw [if_pos hc] at h
        simp only [Option.some.injEq, Prod.mk.injEq] at h
        obtain ⟨hv, hr⟩ := h
        subst hr
        subst hc
        exact hasSuffix_skip_eq hsw
      · rw [if_neg hc] at h
        exact hasSuffix_trans (hasSuffix_skip_eq hsw)
          (parseMembers_split f (c :: r) [] v rest h)

/-- A successful member-loop scan consumes up to a closing brace. -/
theorem parseMembers_split : ∀ f cs acc v rest,
    parseMembers f cs acc = some (v, rest) → hasSuffix cs ('\x7d' :: rest)
  | 0, cs, acc, v, rest, h => by simp [parseMembers] at h
  | Nat.succ f, cs, acc, v, rest, h => by
    cases cs with
    | nil => simp [parseMembers] at h
    | cons c r =>
      simp only [parseMembers] at h
      by_cases hc : c = '"'
      · rw [if_pos hc] at h
        cases hsb : parseStrBody f r [] with
        | none => rw [hsb] at h; simp at h
        | some p =>
          obtain ⟨key, r1⟩ := p
          rw [hsb] at h
          simp only at h
          cases hsw1 : skipWs r1 with
          | nil => rw [hsw1] at h; simp at h
          | cons c2 r2 =>
            rw [hsw1] at h
            simp only at h
            by_cases hc2 : c2 = ':'
            · rw [if_pos hc2] at h
              cases hpv : parseVal f (skipWs r2) with
              | none => rw [hpv] at h; simp at h
              | some q =>
                obtain ⟨v0, r3⟩ := q
                rw [hpv] at h
                simp only at h
                cases hsw3 : skipWs r3 with
                | nil => rw [hsw3] at h; simp at h
                | cons c3 r4 =>
                  rw [hsw3] at h
                  simp only at h
                  have hchain : hasSuffix (c :: r) r3 := by
                    have s1 := parseStrBody_split f r [] key r1 hsb
                    obtain ⟨cX, _, _, s2⟩ := parseVal_split f (skipWs r2) v0 r3 hpv
                    exact hasSuffix_cons c (hasSuffix_trans s1
                      (hasSuffix_trans (hasSuffix_cons_self '"' r1)
                        (hasSuffix_trans (hasSuffix_skip_eq hsw1)
                          (hasSuffix_trans (hasSuffix_cons_self c2 r2)
                            (hasSuffix_trans (hasSuffix_skipWs r2)
                              (hasSuffix_trans s2 (hasSuffix_cons_self cX r3)))))))
                  by_cases hc3 : c3 = ','
                  · rw [if_pos hc3] at h
                    have ih := parseMembers_split f (skipWs r4) _ v rest h
                    exact hasSuffix_trans hchain
                      (hasSuffix_trans (hasSuffix_skip_eq hsw3)
                        (hasSuffix_trans (hasSuffix_cons_self c3 r4)
                          (hasSuffix_trans (hasSuffix_skipWs r4) ih)))
                  · by_cases hc3b : c3 = '\x7d'
                    · rw [if_neg hc3, if_pos hc3b] at h
                      simp only [Option.some.injEq, Prod.mk.injEq] at h
                      obtain ⟨hv, hr⟩ := h
                      subst hr
                      subst hc3b
                      exact hasSuffix_trans hchain (hasSuffix_skip_eq hsw3)
                    · rw [if_neg hc3, if_neg hc3b] at h
                      simp at h
            · rw [if_neg hc2] at h
              simp at h
      · rw [if_neg hc] at h
        simp at h

/-- A successful array scan consumes up to a closing bracket. -/
theorem parseArrBody_split : ∀ f cs v rest, parseArrBody f cs = some (v, rest) →
    hasSuffix cs (']' :: rest)
  | 0, cs, v, rest, h => by simp [parseArrBody] at h
  | Nat.succ f, cs, v, rest, h => by
    simp only [parseArrBody] at h
    cases hsw : skipWs cs with
    | nil => rw [hsw] at h; simp at h
    | cons c r =>
      rw [hsw] at h
      simp only at h
      by_cases hc : c = ']'
      · rw [if_pos hc] at h
        simp only [Option.some.injEq, Prod.mk.injEq] at h
        obtain ⟨hv, hr⟩ := h
        subst hr
        subst hc
        exact hasSuffix_skip_eq hsw
      · rw [if_neg hc] at h
        exact hasSuffix_trans (hasSuffix_skip_eq hsw)
          (parseItems_split f (c :: r) [] v rest h)

/-- A successful item-loop scan consumes up to a closing bracket. -/
theorem parseItems_split : ∀ f cs acc v rest,
    parseItems f cs acc = some (v, rest) → hasSuffix cs (']' :: rest)
  | 0, cs, acc, v, rest, h => by simp [parseItems] at h
  | Nat.succ f, cs, acc, v, rest, h => by
    simp only [parseItems] at h
    cases hpv : parseVal f cs with
    | none => rw [hpv] at h; simp at h
    | some q =>
      obtain ⟨v0, r1⟩ := q
      rw [hpv] at h
      simp only at h
      obtain ⟨cX, _, _, sX⟩ := parseVal_split f cs v0 r1 hpv
      have hcs1 : hasSuffix cs r1 := hasSuffix_trans sX (hasSuffix_cons_self cX r1)
      cases hsw : skipWs r1 with
      | nil => rw [hsw] at h; simp at h
      | cons c2 r2 =>
        rw [hsw] at h
        simp only at h
        by_cases hc2 : c2 = ','
        · rw [if_pos hc2] at h
          have ih := parseItems_split f (skipWs r2) _ v rest h
          exact hasSuffix_trans hcs1
            (hasSuffix_trans (hasSuffix_skip_eq hsw)
              (hasSuffix_trans (hasSuffix_cons_self c2 r2)
                (hasSuffix_trans (hasSuffix_skipWs r2) ih)))
        · by_cases hc2b : c2 = ']'
          · rw [if_neg hc2, if_pos hc2b] at h
            simp only [Option.some.injEq, Prod.mk.injEq] at h
            obtain ⟨hv, hr⟩ := h
            subst hr
            subst hc2b
            exact hasSuffix_trans hcs1 (hasSuffix_skip_eq hsw)
          · rw [if_neg hc2, if_neg hc2b] at h
            simp at h

end

/-! ### Occurrence geometry of triple backticks -/

/-- A triple-backtick start forces a leading backtick. -/
theorem startsTriple_head {c : Char} {t : List Char}
    (h : startsTriple (c :: t) = true) : c = '\x60' := by
  rcases t with _ | ⟨d1, _ | ⟨d2, t2⟩⟩
  · simp [startsTriple] at h
  · simp [startsTriple] at h
  · simp only [startsTriple, Bool.and_eq_true, decide_eq_true_eq] at h
    exact h.1.1

/-- Splitting off the head of a triple-free text. -/
theorem containsTriple_cons_false {c : Char} {t : List Char}
    (h : containsTriple (c :: t) = false) :
    startsTriple (c :: t) = false ∧ containsTriple t = false := by
  rw [containsTriple] at h
  exact ⟨by cases hq : startsTriple (c :: t) <;> simp [hq] at h ⊢,
    by cases hq : containsTriple t <;> simp [hq] at h ⊢⟩

/-- A backtick-free text contains no triple. -/
theorem noTick_noTriple : ∀ b : List Char, (∀ c ∈ b, c ≠ '\x60') →
    containsTriple b = false
  | [], _ => rfl
  | c :: t, h => by
    have h1 : startsTriple (c :: t) = false := by
      cases hs : startsTriple (c :: t) with
      | false => rfl
      | true => exact absurd (startsTriple_head hs) (h c (by simp))
    simp [containsTriple, h1, noTick_noTriple t (fun d hd => h d (by simp [hd]))]

/-- A triple on the right makes a triple in the whole. -/
theorem containsTriple_append_right : ∀ x y : List Char,
    containsTriple y = true → containsTriple (x ++ y) = true
  | [], y, hy => hy
  | c :: x2, y, hy => by
    simp [containsTriple, containsTriple_append_right x2 y hy]

/-- A triple on the left makes a triple in the whole. -/
theorem containsTriple_append_left : ∀ y z : List Char,
    containsTriple y = true → containsTriple (y ++ z) = true
  | [], _, hy => by simp [containsTriple] at hy
  | c :: t, z, hy => by
    rw [containsTriple] at hy
    rw [List.cons_append, containsTriple]
    cases hs : startsTriple (c :: t) with
    | true =>
      rcases t with _ | ⟨d1, _ | ⟨d2, t2⟩⟩
      · simp [startsTriple] at hs
      · simp [startsTriple] at hs
      · simp only [startsTriple, Bool.and_eq_true] at hs
        simp [startsTriple, hs.1.1, hs.1.2, hs.2]
    | false =>
      rw [hs] at hy
      simp only [Bool.false_or] at hy
      simp [containsTriple_append_left t z hy]

/-- No triple in a part when the whole right side is triple-free. -/
theorem containsTriple_of_append_left : ∀ x y : List Char,
    containsTriple (x ++ y) = false → containsTriple y = false
  | [], _, h => h
  | _ :: x2, y, h => containsTriple_of_append_left x2 y (containsTriple_cons_false h).2

/-- No triple in a part when the whole left side is triple-free. -/
theorem containsTriple_of_append_right (y z : List Char)
    (h : containsTriple (y ++ z) = false) : containsTriple y = false := by
  cases hq : containsTriple y with
  | false => rfl
  | true => rw [containsTriple_append_left y z hq] at h; exact absurd h (by simp)

/-- Appending backtick-free text preserves triple-freeness. -/
theorem containsTriple_append_no_tick : ∀ a b : List Char,
    containsTriple a = false → (∀ c ∈ b, c ≠ '\x60') →
    containsTriple (a ++ b) = false
  | [], b, _, hb => noTick_noTriple b hb
  | c :: t, b, ha, hb => by
    obtain ⟨hs, ht⟩ := containsTriple_cons_false ha
    have ih := containsTriple_append_no_tick t b ht hb
    have hs2 : startsTriple (c :: (t ++ b)) = false := by
      rcases t with _ | ⟨d1, _ | ⟨d2, t2⟩⟩
      · rcases b with _ | ⟨b0, _ | ⟨b1, b2⟩⟩
        · simp [startsTriple]
        · simp [startsTriple]
        · have hb0 : b0 ≠ '\x60' := hb b0 (by simp)
          simp [startsTriple, hb0]
      · rcases b with _ | ⟨b0, b2⟩
        · simp [startsTriple]
        · have hb0 : b0 ≠ '\x60' := hb b0 (by simp)
          simp [startsTriple, hb0]
      · simp only [startsTriple] at hs ⊢
        simpa using hs
    rw [List.cons_append, containsTriple, hs2, ih]
    rfl

/-- Appending any triple-free text after a non-backtick last character
preserves triple-freeness. -/
theorem containsTriple_append_end : ∀ (q : List Char) (d : Char) (b : List Char),
    containsTriple (q ++ [d]) = false → d ≠ '\x60' → containsTriple b = false →
    containsTriple ((q ++ [d]) ++ b) = false
  | [], d, b, _, hd, hb => by
    have hs : startsTriple (d :: b) = false := by
      cases hq : startsTriple (d :: b) with
      | false => rfl
      | true => exact absurd (startsTriple_head hq) hd
    simpa [containsTriple, hs] using hb
  | c :: q2, d, b, ha, hd, hb => by
    have ha2 : containsTriple (q2 ++ [d]) = false :=
      (containsTriple_cons_false (by simpa using ha)).2
    have ih := containsTriple_append_end q2 d b ha2 hd hb
    have hs2 : startsTriple (c :: ((q2 ++ [d]) ++ b)) = false := by
      rcases q2 with _ | ⟨d1, q3⟩
      · rcases b with _ | ⟨b0, b2⟩
        · simp [startsTriple, hd]
        · simp [startsTriple, hd]
      · have hsa : startsTriple (c :: d1 :: (q3 ++ [d])) = false :=
          (containsTriple_cons_false (by simpa using ha)).1
        rcases q3 with _ | ⟨d2, q4⟩
        · simp only [startsTriple] at hsa ⊢
          simpa using hsa
        · simp only [startsTriple] at hsa ⊢
          simpa using hsa
    have hcons : ((c :: q2 ++ [d]) ++ b) = c :: ((q2 ++ [d]) ++ b) := by simp
    rw [hcons, containsTriple, hs2, ih]
    rfl

/-- The first triple in a head's presence depends only on three characters. -/
theorem startsTriple_firstthree (c : Char) (pre2 post : List Char) :
    startsTriple (c :: (pre2 ++ '\x60' :: '\x60' :: '\x60' :: post)) =
      startsTriple (c :: (pre2 ++ ['\x60', '\x60'])) := by
  rcases pre2 with _ | ⟨d1, _ | ⟨d2, t2⟩⟩ <;> simp [startsTriple]

/-- Splitting at the first triple after a triple-free prefix whose final
two-backtick extension is still triple-free. -/
theorem splitTriple_first : ∀ pre post : List Char,
    containsTriple (pre ++ ['\x60', '\x60']) = false →
    splitTriple (pre ++ '\x60' :: '\x60' :: '\x60' :: post) = some (pre, post)
  | [], post, _ => by simp [splitTriple, startsTriple]
  | c :: pre2, post, h => by
    have hh := containsTriple_cons_false
      (show containsTriple (c :: (pre2 ++ ['\x60', '\x60'])) = false by simpa using h)
    have ih := splitTriple_first pre2 post hh.2
    have hfalse : startsTriple (c :: (pre2 ++ '\x60' :: '\x60' :: '\x60' :: post)) = false :=
      (startsTriple_firstthree c pre2 post).trans hh.1
    rw [List.cons_append, splitTriple, if_neg (by rw [hfalse]; exact Bool.false_ne_true), ih]

/-! ### Whitespace runs around the trimmed core -/

/-- Dropping a satisfied prefix continues into the rest. -/
theorem dropWhile_ws_append {p : Char → Bool} : ∀ w x : List Char,
    (∀ c ∈ w, p c = true) → List.dropWhile p (w ++ x) = List.dropWhile p x
  | [], _, _ => rfl
  | c :: w2, x, h => by
    have hc : p c = true := h c (by simp)
    rw [List.cons_append, List.dropWhile_cons_of_pos hc]
    exact dropWhile_ws_append w2 x (fun d hd => h d (by simp [hd]))

/-- A reverse-side drop ignores an appended satisfied run. -/
theorem revDrop_append_ws {p : Char → Bool} (a b : List Char)
    (hb : ∀ c ∈ b, p c = true) :
    ((a ++ b).reverse.dropWhile p).reverse = (a.reverse.dropWhile p).reverse := by
  rw [List.reverse_append,
    dropWhile_ws_append b.reverse a.reverse (fun c hc => hb c (List.mem_reverse.mp hc))]

/-- A reverse-side drop keeps a list ending in an unsatisfied character. -/
theorem revDrop_of_last {p : Char → Bool} (q : List Char) (d : Char)
    (hd : p d = false) : ((q ++ [d]).reverse.dropWhile p).reverse = q ++ [d] := by
  rw [List.reverse_append]
  simp [List.dropWhile_cons_of_neg, hd]

/-- JSON whitespace is Python whitespace. -/
theorem jsonWs_pyWs {c : Char} (h : isJsonWs c = true) : isPyWs c = true := by
  simp [isPyWs, h]

/-- A character that is not Python whitespace is not JSON whitespace. -/
theorem pyWs_false_jsonWs_false {c : Char} (h : isPyWs c = false) :
    isJsonWs c = false := by
  cases hq : isJsonWs c with
  | false => rfl
  | true => rw [jsonWs_pyWs hq] at h; exact absurd h (by simp)

/-- JSON whitespace is not a backtick. -/
theorem jsonWs_no_tick {c : Char} (h : isJsonWs c = true) : c ≠ '\x60' := by
  simp only [isJsonWs, Bool.or_eq_true, decide_eq_true_eq] at h
  rcases h with ((rfl | rfl) | rfl) | rfl <;> decide

/-- Every text is its leading whitespace, its trimmed core, and its trailing
whitespace. -/
theorem trim_decomp (cs : List Char) :
    ∃ w1 w2, cs = w1 ++ trimWs cs ++ w2 ∧
      (∀ c ∈ w1, isJsonWs c = true) ∧ (∀ c ∈ w2, isJsonWs c = true) := by
  refine ⟨cs.takeWhile isJsonWs, ((skipWs cs).reverse.takeWhile isJsonWs).reverse,
    ?_, ?_, ?_⟩
  · have h1 : cs = cs.takeWhile isJsonWs ++ skipWs cs :=
      (List.takeWhile_append_dropWhile isJsonWs cs).symm
    have h3 := List.takeWhile_append_dropWhile isJsonWs (skipWs cs).reverse
    have h2 : skipWs cs = trimWs cs ++ ((skipWs cs).reverse.takeWhile isJsonWs).reverse :=
      calc skipWs cs = ((skipWs cs).reverse).reverse := (List.reverse_reverse _).symm
        _ = ((skipWs cs).reverse.takeWhile isJsonWs ++
              (skipWs cs).reverse.dropWhile isJsonWs).reverse := by rw [h3]
        _ = ((skipWs cs).reverse.dropWhile isJsonWs).reverse ++
              ((skipWs cs).reverse.takeWhile isJsonWs).reverse := by
            rw [List.reverse_append]
        _ = trimWs cs ++ ((skipWs cs).reverse.takeWhile isJsonWs).reverse := rfl
    calc cs = cs.takeWhile isJsonWs ++ skipWs cs := h1
      _ = cs.takeWhile isJsonWs ++
            (trimWs cs ++ ((skipWs cs).reverse.takeWhile isJsonWs).reverse) := by rw [← h2]
      _ = cs.takeWhile isJsonWs ++ trimWs cs ++
            ((skipWs cs).reverse.takeWhile isJsonWs).reverse := by
          rw [List.append_assoc]
  · intro c hc
    exact List.mem_takeWhile_imp hc
  · intro c hc
    exact List.mem_takeWhile_imp (List.mem_reverse.mp hc)

/-- The value scanner fails on a leading backtick. -/
theorem parseVal_backtick_none (f : Nat) (rest : List Char) :
    parseVal f ('\x60' :: rest) = none := by
  cases hq : parseVal f ('\x60' :: rest) with
  | none => rfl
  | some r =>
    obtain ⟨c, cs2, he, _, hnb⟩ := parseVal_head f _ r hq
    injection he with h1 h2
    exact absurd h1.symm hnb

/-- On a fence-wrapped valid JSON text with no inner triple backtick, the
direct parse fails and the fenced-block extraction recovers exactly the
trimmed JSON core, which parses to the same value. -/
theorem wrapped_normalizes (s : String) (v : Json)
    (hv : jsonLoadsL s.toList = some v) (ht : containsTriple s.toList = false) :
    jsonLoadsL ("```json\n" ++ s ++ "\n```").toList = none ∧
    (fencedGroup ("```json\n" ++ s ++ "\n```").toList).bind jsonLoadsL = some v := by
  have hW : ("```json\n" ++ s ++ "\n```").toList
      = '\x60' :: '\x60' :: '\x60' :: 'j' :: 's' :: 'o' :: 'n' :: '\n' ::
        (s.toList ++ ['\n', '\x60', '\x60', '\x60']) := by
    rw [strToList_append, strToList_append]
    show ['\x60', '\x60', '\x60', 'j', 's', 'o', 'n', '\n'] ++ s.toList ++
      ['\n', '\x60', '\x60', '\x60'] = _
    simp
  -- invert the hypothesis into a raw scanner fact about the trimmed core
  rw [jsonLoadsL] at hv
  cases hp : parseVal (3 * (trimWs s.toList).length + 3) (trimWs s.toList) with
  | none => rw [hp] at hv; simp at hv
  | some pr =>
    obtain ⟨v2, r⟩ := pr
    rw [hp] at hv
    cases r with
    | cons c0 r0 => simp at hv
    | nil =>
      simp only [Option.some.injEq] at hv
      subst hv
      obtain ⟨d0, b1, hb0, hd0py, hd0t⟩ := parseVal_head _ _ _ hp
      obtain ⟨cL, hcLpy, hcLt, preL, hbL⟩ := parseVal_split _ _ _ _ hp
      obtain ⟨w1, w2, hdec, hw1, hw2⟩ := trim_decomp s.toList
      -- the scanner rejects the wrapped text outright
      have hloadw : jsonLoadsL ("```json\n" ++ s ++ "\n```").toList = none := by
        rw [hW, jsonLoadsL]
        have hskip : skipWs ('\x60' :: '\x60' :: '\x60' :: 'j' :: 's' :: 'o' :: 'n' :: '\n' ::
            (s.toList ++ ['\n', '\x60', '\x60', '\x60']))
            = '\x60' :: '\x60' :: '\x60' :: 'j' :: 's' :: 'o' :: 'n' :: '\n' ::
            (s.toList ++ ['\n', '\x60', '\x60', '\x60']) :=
          List.dropWhile_cons_of_neg (by decide)
        have hsplit : ('\x60' :: '\x60' :: '\x60' :: 'j' :: 's' :: 'o' :: 'n' :: '\n' ::
            (s.toList ++ ['\n', '\x60', '\x60', '\x60']))
            = ('\x60' :: '\x60' :: '\x60' :: 'j' :: 's' :: 'o' :: 'n' :: '\n' ::
              (s.toList ++ ['\n', '\x60', '\x60'])) ++ ['\x60'] := by
          simp
        have hdrop : dropTrailWs ('\x60' :: '\x60' :: '\x60' :: 'j' :: 's' :: 'o' :: 'n' :: '\n' ::
            (s.toList ++ ['\n', '\x60', '\x60', '\x60']))
            = '\x60' :: '\x60' :: '\x60' :: 'j' :: 's' :: 'o' :: 'n' :: '\n' ::
            (s.toList ++ ['\n', '\x60', '\x60', '\x60']) := by
          rw [dropTrailWs, hsplit, revDrop_of_last _ _ (by decide)]
        rw [trimWs, hskip, hdrop, parseVal_backtick_none]
      refine ⟨hloadw, ?_⟩
      -- the trimmed core parses on its own with the same fuel
      have hskipb : skipWs (trimWs s.toList) = trimWs s.toList := by
        rw [hb0, skipWs, List.dropWhile_cons_of_neg]
        rw [pyWs_false_jsonWs_false hd0py]
        simp
      have hdropb : dropTrailWs (trimWs s.toList) = trimWs s.toList := by
        have hbL2 : trimWs s.toList = preL ++ [cL] := hbL
        rw [hbL2, dropTrailWs, revDrop_of_last _ _ (pyWs_false_jsonWs_false hcLpy)]
      have htb : trimWs (trimWs s.toList) = trimWs s.toList := by
        rw [trimWs, hskipb, hdropb]
      have hloadb : jsonLoadsL (trimWs s.toList) = some v2 := by
        rw [jsonLoadsL]
        rw [htb, hp]
      -- the fenced-block extraction recovers exactly the trimmed core
      have hcore_noTick : containsTriple (trimWs s.toList) = false := by
        have h1 : containsTriple (w1 ++ (trimWs s.toList ++ w2)) = false := by
          rw [← List.append_assoc, ← hdec]
          exact ht
        exact containsTriple_of_append_right _ _ (containsTriple_of_append_left _ _ h1)
      have hpre_noTick : containsTriple (trimWs s.toList ++ (w2 ++ ['\n'])) = false := by
        refine containsTriple_append_no_tick _ _ hcore_noTick ?_
        intro c hc
        rcases List.mem_append.mp hc with hc2 | hc2
        · exact jsonWs_no_tick (hw2 c hc2)
        · simp at hc2
          subst hc2
          decide
      have hcond : containsTriple ((trimWs s.toList ++ w2 ++ ['\n']) ++ ['\x60', '\x60'])
          = false := by
        have := containsTriple_append_end (trimWs s.toList ++ w2) '\n' ['\x60', '\x60']
          (by rw [List.append_assoc]; exact hpre_noTick) (by decide) (by decide)
        simpa using this
      have hbody : List.dropWhile isPyWs ('\n' :: (s.toList ++ ['\n', '\x60', '\x60', '\x60']))
          = trimWs s.toList ++ (w2 ++ ['\n', '\x60', '\x60', '\x60']) := by
        rw [List.dropWhile_cons_of_pos (by decide)]
        conv_lhs => rw [hdec]
        rw [List.append_assoc, List.append_assoc,
          dropWhile_ws_append w1 _ (fun c hc => jsonWs_pyWs (hw1 c hc))]
        rw [hb0, List.cons_append, List.dropWhile_cons_of_neg]
        rw [hd0py]
        simp
      have hsplitT : splitTriple (trimWs s.toList ++ (w2 ++ ['\n', '\x60', '\x60', '\x60']))
          = some (trimWs s.toList ++ w2 ++ ['\n'], []) := by
        have he : trimWs s.toList ++ (w2 ++ ['\n', '\x60', '\x60', '\x60'])
            = (trimWs s.toList ++ w2 ++ ['\n']) ++
              '\x60' :: '\x60' :: '\x60' :: ([] : List Char) := by
          simp
        rw [he]
        exact splitTriple_first _ _ hcond
      have hgroup : dropTrailPyWs (trimWs s.toList ++ w2 ++ ['\n']) = trimWs s.toList := by
        rw [dropTrailPyWs, List.append_assoc,
          revDrop_append_ws (trimWs s.toList) (w2 ++ ['\n']) ?_]
        · rw [hbL]
          exact revDrop_of_last _ _ hcLpy
        · intro c hc
          rcases List.mem_append.mp hc with hc2 | hc2
          · exact jsonWs_pyWs (hw2 c hc2)
          · simp at hc2
            subst hc2
            decide
      have hfg : fencedGroup ('\x60' :: '\x60' :: '\x60' :: 'j' :: 's' :: 'o' :: 'n' :: '\n' ::
          (s.toList ++ ['\n', '\x60', '\x60', '\x60'])) = some (trimWs s.toList) := by
        rw [fencedGroup]
        rw [if_pos ?_]
        · rw [show (('\x60' :: '\x60' :: 'j' :: 's' :: 'o' :: 'n' :: '\n' ::
              (s.toList ++ ['\n', '\x60', '\x60', '\x60'])).drop 2)
              = 'j' :: 's' :: 'o' :: 'n' :: '\n' :: (s.toList ++ ['\n', '\x60', '\x60', '\x60'])
            from rfl]
          simp only [extractGroup]
          rw [show (['j', 's', 'o', 'n'].isPrefixOf
              ('j' :: 's' :: 'o' :: 'n' :: '\n' :: (s.toList ++ ['\n', '\x60', '\x60', '\x60'])))
              = true from by simp [List.isPrefixOf]]
          rw [if_pos rfl]
          rw [show (('j' :: 's' :: 'o' :: 'n' :: '\n' ::
              (s.toList ++ ['\n', '\x60', '\x60', '\x60'])).drop 4)
              = '\n' :: (s.toList ++ ['\n', '\x60', '\x60', '\x60']) from rfl]
          rw [hbody, hsplitT]
          show some (dropTrailPyWs (trimWs s.toList ++ w2 ++ ['\n'])) = some (trimWs s.toList)
          rw [hgroup]
        · rw [Bool.and_eq_true]
          constructor
          · rfl
          · rw [show (('\x60' :: '\x60' :: 'j' :: 's' :: 'o' :: 'n' :: '\n' ::
                (s.toList ++ ['\n', '\x60', '\x60', '\x60'])).drop 2)
                = 'j' :: 's' :: 'o' :: 'n' :: '\n' :: (s.toList ++ ['\n', '\x60', '\x60', '\x60'])
              from rfl]
            rw [show ('j' :: 's' :: 'o' :: 'n' :: '\n' :: (s.toList ++ ['\n', '\x60', '\x60', '\x60']))
                = (['j', 's', 'o', 'n', '\n'] ++ s.toList) ++ ['\n', '\x60', '\x60', '\x60']
              from by simp]
            exact containsTriple_append_right _ _ (by decide)
      rw [hW, hfg]
      simp only [Option.bind]
      exact hloadb

/-! ### C4: fenced-wrap equivalence -/

/-- C4 (counterexample). The fenced-wrap equivalence fails for valid JSON
text that itself contains a triple backtick: the lazy fenced group stops at
the inner backticks, the truncated capture does not parse, and the wrapped
text falls back while the plain text parses directly. -/
theorem C4_counterexample :
    jsonLoadsL ("\"a```b\"").toList = some (Json.str "a```b") ∧
    parse_ai_response "\"a```b\"" = Json.str "a```b" ∧
    parse_ai_response ("```json\n" ++ "\"a```b\"" ++ "\n```") = fallback_response ∧
    parse_ai_response ("```json\n" ++ "\"a```b\"" ++ "\n```")
      ≠ parse_ai_response "\"a```b\"" := by
  refine ⟨rfl, rfl, rfl, ?_⟩
  intro h
  rw [show parse_ai_response ("```json\n" ++ "\"a```b\"" ++ "\n```") = fallback_response
      from rfl,
    show parse_ai_response "\"a```b\"" = Json.str "a```b" from rfl] at h
  unfold fallback_response at h
  exact Json.noConfusion h

/-- C4 (amended). For every string that parses as JSON and contains no
triple backtick, wrapping it in a json-tagged fence leaves the normalizer's
result unchanged: the direct parse of the wrapped text fails, and the fenced
group recovers exactly the trimmed JSON core. -/
theorem C4_amended_fenced_wrap_equiv (s : String) (v : Json)
    (hv : jsonLoadsL s.toList = some v)
    (ht : containsTriple s.toList = false) :
    parse_ai_response ("```json\n" ++ s ++ "\n```") = parse_ai_response s := by
  obtain ⟨h1, h2⟩ := wrapped_normalizes s v hv ht
  rw [parse_direct_of_loads s v hv]
  unfold parse_ai_response
  simp only [h1, h2]

/-- Witness for C4 (amended) at a concrete backtick-free object string. -/
theorem C4_witness :
    jsonLoadsL ("\x7b\"a\": 1\x7d".toList) = some (Json.obj [("a", Json.int 1)]) ∧
    containsTriple ("\x7b\"a\": 1\x7d".toList) = false ∧
    parse_ai_response ("```json\n" ++ "\x7b\"a\": 1\x7d" ++ "\n```")
      = parse_ai_response "\x7b\"a\": 1\x7d" :=
  ⟨rfl, rfl,
    C4_amended_fenced_wrap_equiv "\x7b\"a\": 1\x7d" (Json.obj [("a", Json.int 1)]) rfl rfl⟩

/-! ### Append stability of the token scanners -/

/-- A take/drop split propagates over an appended tail when the drop part is
nonempty: the split point lies inside the first list. -/
theorem while_append_ne {α : Type} (p : α → Bool) : ∀ (l1 l2 : List α),
    l1.dropWhile p ≠ [] →
    (l1 ++ l2).takeWhile p = l1.takeWhile p ∧
      (l1 ++ l2).dropWhile p = l1.dropWhile p ++ l2
  | [], _, h => absurd rfl h
  | a :: t, l2, h => by
    by_cases hp : p a = true
    · rw [List.dropWhile_cons_of_pos hp] at h
      obtain ⟨ih1, ih2⟩ := while_append_ne p t l2 h
      rw [List.cons_append, List.takeWhile_cons_of_pos hp,
        List.takeWhile_cons_of_pos hp, List.dropWhile_cons_of_pos hp,
        List.dropWhile_cons_of_pos hp, ih1, ih2]
      exact ⟨rfl, rfl⟩
    · rw [List.cons_append, List.takeWhile_cons_of_neg hp,
        List.takeWhile_cons_of_neg hp, List.dropWhile_cons_of_neg hp,
        List.dropWhile_cons_of_neg hp, List.cons_append]
      exact ⟨rfl, rfl⟩

/-- A take/drop split over an appended tail when the first list is consumed
entirely: the split point moves to the second list. -/
theorem while_append_nil {α : Type} (p : α → Bool) : ∀ (l1 l2 : List α),
    l1.dropWhile p = [] →
    (l1 ++ l2).takeWhile p = l1 ++ l2.takeWhile p ∧
      (l1 ++ l2).dropWhile p = l2.dropWhile p
  | [], l2, _ => ⟨rfl, rfl⟩
  | a :: t, l2, h => by
    by_cases hp : p a = true
    · rw [List.dropWhile_cons_of_pos hp] at h
      obtain ⟨ih1, ih2⟩ := while_append_nil p t l2 h
      rw [List.cons_append, List.takeWhile_cons_of_pos hp,
        List.dropWhile_cons_of_pos hp, ih1, ih2, List.cons_append]
      exact ⟨rfl, rfl⟩
    · rw [List.dropWhile_cons_of_neg hp] at h
      exact absurd h (by simp)

/-- A list of characters all satisfying the predicate is dropped entirely. -/
theorem dropWhile_all_nil {α : Type} (p : α → Bool) : ∀ (l : List α),
    (∀ c ∈ l, p c = true) → l.dropWhile p = []
  | [], _ => rfl
  | a :: t, h => by
    rw [List.dropWhile_cons_of_pos (h a (by simp))]
    exact dropWhile_all_nil p t (fun c hc => h c (by simp [hc]))

/-- A nonempty whitespace skip propagates over an appended tail. -/
theorem skipWs_append_cons {cs : List Char} {c : Char} {r : List Char}
    (ext : List Char) (h : skipWs cs = c :: r) :
    skipWs (cs ++ ext) = c :: (r ++ ext) := by
  have hne : cs.dropWhile isJsonWs ≠ [] := by
    rw [show cs.dropWhile isJsonWs = skipWs cs from rfl, h]
    simp
  have := (while_append_ne isJsonWs cs ext hne).2
  rw [skipWs, this, show cs.dropWhile isJsonWs = skipWs cs from rfl, h]
  rfl

/-- A boolean prefix stays a prefix of any extension, dropping the same way. -/
theorem prefix_ext {l rest : List Char} (ext : List Char)
    (h : l.isPrefixOf rest = true) :
    l.isPrefixOf (rest ++ ext) = true ∧
      (rest ++ ext).drop l.length = rest.drop l.length ++ ext := by
  obtain ⟨t, rfl⟩ := List.isPrefixOf_iff_prefix.mp h
  constructor
  · exact List.isPrefixOf_iff_prefix.mpr ⟨t ++ ext, by simp⟩
  · rw [List.append_assoc, List.drop_left, List.drop_left]

/-- The value scanner rejects empty input at every fuel. -/
theorem parseVal_nil : ∀ f, parseVal f [] = none
  | 0 => rfl
  | Nat.succ _ => rfl

/-- The member loop rejects empty input at every fuel. -/
theorem parseMembers_nil : ∀ f acc, parseMembers f [] acc = none
  | 0, _ => rfl
  | Nat.succ _, _ => rfl

/-- The string-body scanner rejects empty input at every fuel. -/
theorem parseStrBody_nil : ∀ f acc, parseStrBody f [] acc = none
  | 0, _ => rfl
  | Nat.succ _, _ => rfl

/-- The number lexer only produces int or float values. -/
theorem parseNumber_shape {cs : List Char} {v : Json} {r : List Char}
    (h : parseNumber cs = some (v, r)) :
    (∃ n, v = Json.int n) ∨ (∃ l, v = Json.float l) := by
  have core : ∀ neg tail, parseNumberCore neg tail = some (v, r) →
      (∃ n, v = Json.int n) ∨ (∃ l, v = Json.float l) := by
    intro neg tail hc
    rw [parseNumberCore] at hc
    cases hli : lexInt tail with
    | none => rw [hli] at hc; simp at hc
    | some p =>
      obtain ⟨A, afterInt⟩ := p
      rw [hli] at hc
      simp only at hc
      by_cases hfe : (lexFrac afterInt).1 = [] ∧ (lexExp (lexFrac afterInt).2).1 = []
      · rw [if_pos hfe] at hc
        simp only [Option.some.injEq, Prod.mk.injEq] at hc
        exact Or.inl ⟨_, hc.1.symm⟩
      · rw [if_neg hfe] at hc
        simp only [Option.some.injEq, Prod.mk.injEq] at hc
        exact Or.inr ⟨_, hc.1.symm⟩
  cases cs with
  | nil => exact core false [] h
  | cons c t =>
    rw [parseNumber] at h
    by_cases hm : c = '-'
    · rw [if_pos hm] at h; exact core true t h
    · rw [if_neg hm] at h; exact core false (c :: t) h

/-- A JSON whitespace character cannot extend a number token. -/
theorem ws_headSafe {c : Char} (h : isJsonWs c = true) : headSafe c := by
  rw [isJsonWs] at h
  simp only [Bool.or_eq_true, decide_eq_true_eq] at h
  rcases h with ((rfl | rfl) | rfl) | rfl <;> exact ⟨by decide, by decide, by decide, by decide⟩

/-- If the whitespace skip of the remaining input reaches a token-breaking
character, the remaining input already starts at one. -/
theorem boundary_head {r : List Char} {c3 : Char} {r4 : List Char}
    (hsw : skipWs r = c3 :: r4) (hc3 : headSafe c3) :
    ∃ c t, r = c :: t ∧ headSafe c := by
  cases r with
  | nil => simp [skipWs] at hsw
  | cons c t =>
    by_cases hw : isJsonWs c = true
    · exact ⟨c, t, rfl, ws_headSafe hw⟩
    · rw [skipWs, List.dropWhile_cons_of_neg (by simp [hw])] at hsw
      obtain ⟨rfl, -⟩ := List.cons.inj hsw
      exact ⟨c, t, rfl, hc3⟩

/-- Without a triple backtick there is no fenced block. -/
theorem fencedGroup_none_of_noTriple : ∀ cs : List Char,
    containsTriple cs = false → fencedGroup cs = none
  | [], _ => rfl
  | c :: t, h => by
    rw [containsTriple] at h
    rw [Bool.or_eq_false_iff] at h
    rw [fencedGroup, h.1]
    simp only [Bool.false_and, if_neg (by simp : ¬ (false = true))]
    exact fencedGroup_none_of_noTriple t h.2

/-- A safe extension contains no leading digit run. -/
theorem extSafe_take_nil {ext : List Char} (h : extSafeS ext) :
    ext.takeWhile isDigitCh = [] ∧ ext.dropWhile isDigitCh = ext := by
  cases ext with
  | nil => exact ⟨rfl, rfl⟩
  | cons c t =>
    have hc : isDigitCh c = false := (h c t rfl).1
    exact ⟨List.takeWhile_cons_of_neg (by simp [hc]),
      List.dropWhile_cons_of_neg (by simp [hc])⟩

/-- The integer lexer is stable under appending input that cannot extend its
digit run. -/
theorem lexInt_ext {tail A rest : List Char} (ext : List Char)
    (h : lexInt tail = some (A, rest))
    (hc : rest = [] → extSafeS ext) :
    lexInt (tail ++ ext) = some (A, rest ++ ext) := by
  match tail with
  | [] => simp [lexInt] at h
  | c :: t =>
    simp only [lexInt] at h
    rw [List.cons_append]
    simp only [lexInt]
    by_cases h0 : c = '0'
    · rw [if_pos h0] at h ⊢
      simp only [Option.some.injEq, Prod.mk.injEq] at h
      rw [h.1, h.2]
    · rw [if_neg h0] at h ⊢
      by_cases hd : isDigitCh c = true
      · rw [if_pos hd] at h ⊢
        simp only [Option.some.injEq, Prod.mk.injEq] at h
        obtain ⟨hA, hrest⟩ := h
        cases hdw : (c :: t).dropWhile isDigitCh with
        | cons d r =>
          obtain ⟨h1, h2⟩ := while_append_ne isDigitCh (c :: t) ext (by rw [hdw]; simp)
          rw [List.cons_append] at h1 h2
          rw [h1, h2, hA, hrest]
        | nil =>
          have hre : rest = [] := by rw [← hrest, hdw]
          have hext := extSafe_take_nil (hc hre)
          obtain ⟨h1, h2⟩ := while_append_nil isDigitCh (c :: t) ext hdw
          rw [List.cons_append] at h1 h2
          have htw : (c :: t).takeWhile isDigitCh = c :: t := by
            have h3 := List.takeWhile_append_dropWhile isDigitCh (c :: t)
            rwa [hdw, List.append_nil] at h3
          rw [h1, h2, hext.1, hext.2, List.append_nil, ← hA, htw, hre]
          rfl
      · rw [if_neg hd] at h
        simp at h

/-- The fraction lexer is stable under appending safe input. -/
theorem lexFrac_ext {cs F r : List Char} (ext : List Char)
    (h : lexFrac cs = (F, r))
    (hs0 : r = [] → extSafeS ext)
    (hs1 : r = ['.'] → extSafeS ext) :
    lexFrac (cs ++ ext) = (F, r ++ ext) := by
  match cs with
  | [] =>
    simp only [lexFrac] at h
    obtain ⟨rfl, rfl⟩ := Prod.mk.inj h.symm
    cases hext : ext with
    | nil => rfl
    | cons c t =>
      have hc : c ≠ '.' := ((hs0 rfl) c t hext).2.1
      rw [List.nil_append, lexFrac, if_neg hc]
  | c :: t2 =>
    rw [List.cons_append]
    simp only [lexFrac] at h ⊢
    by_cases hdot : c = '.'
    · rw [if_pos hdot] at h ⊢
      by_cases he : (t2.takeWhile isDigitCh) = []
      · rw [if_pos he] at h
        obtain ⟨rfl, rfl⟩ := Prod.mk.inj h.symm
        cases t2 with
        | nil =>
          have hext := extSafe_take_nil (hs1 (by rw [hdot]))
          rw [List.nil_append, if_pos hext.1, hdot]
          rfl
        | cons d t' =>
          have hd : isDigitCh d = false := by
            by_contra hdc
            rw [List.takeWhile_cons_of_pos (by simpa using hdc)] at he
            simp at he
          rw [List.cons_append, List.takeWhile_cons_of_neg (by simp [hd]),
            if_pos rfl, List.cons_append]
          rfl
      · rw [if_neg he] at h
        obtain ⟨rfl, rfl⟩ := Prod.mk.inj h.symm
        cases hdw : t2.dropWhile isDigitCh with
        | cons d r' =>
          obtain ⟨h1, h2⟩ := while_append_ne isDigitCh t2 ext (by rw [hdw]; simp)
          rw [h1, h2, if_neg he]
          rw [hdw]
        | nil =>
          have hext := extSafe_take_nil (hs0 hdw)
          obtain ⟨h1, h2⟩ := while_append_nil isDigitCh t2 ext hdw
          have htw : t2.takeWhile isDigitCh = t2 := by
            have h3 := List.takeWhile_append_dropWhile isDigitCh t2
            rwa [hdw, List.append_nil] at h3
          have hT : (t2 ++ ext).takeWhile isDigitCh = t2 := by
            rw [h1, hext.1, List.append_nil]
          have hD : (t2 ++ ext).dropWhile isDigitCh = ext := by
            rw [h2, hext.2]
          rw [hT, hD, if_neg (show ¬ t2 = [] from by rw [← htw]; exact he)]
          simp [htw, hdw]
    · rw [if_neg hdot] at h ⊢
      obtain ⟨rfl, rfl⟩ := Prod.mk.inj h.symm
      rw [List.cons_append]

/-- A rest list starting with an exponent marker contradicts the boundary
disjunction. -/
theorem head_eE_absurd {e : Char} {t3 r : List Char} (he : e = 'e' ∨ e = 'E')
    (hr : r = e :: t3)
    (hd : r = [] ∨ ∃ c t, r = c :: t ∧ c ≠ 'e' ∧ c ≠ 'E') : False := by
  subst hr
  rcases hd with hnil | ⟨c, t, hct, hce, hcE⟩
  · simp at hnil
  · obtain ⟨rfl, -⟩ := List.cons.inj hct
    rcases he with rfl | rfl
    · exact hce rfl
    · exact hcE rfl

/-- The exponent lexer is stable under appending safe input, provided the
remaining input does not sit right after a dangling exponent marker. -/
theorem lexExp_ext {cs E r : List Char} (ext : List Char)
    (h : lexExp cs = (E, r))
    (h0 : r = [] → extSafeS ext)
    (h1 : E = [] → (r = [] ∨ ∃ c t, r = c :: t ∧ c ≠ 'e' ∧ c ≠ 'E')) :
    lexExp (cs ++ ext) = (E, r ++ ext) := by
  match cs with
  | [] =>
    simp only [lexExp] at h
    obtain ⟨rfl, rfl⟩ := Prod.mk.inj h.symm
    cases hext : ext with
    | nil => rfl
    | cons c t =>
      have hc := (h0 rfl) c t hext
      rw [List.nil_append]
      simp only [lexExp]
      rw [if_neg (show ¬ (c = 'e' ∨ c = 'E') from fun hor =>
        hor.elim (fun hce => hc.2.2.1 hce) (fun hcE => hc.2.2.2 hcE))]
  | e :: t3 =>
    match t3 with
    | [] =>
      simp only [lexExp] at h
      by_cases he : e = 'e' ∨ e = 'E'
      · rw [if_pos he] at h
        obtain ⟨rfl, rfl⟩ := Prod.mk.inj h.symm
        exact absurd (h1 rfl) (fun hd => head_eE_absurd he rfl hd)
      · rw [if_neg he] at h
        obtain ⟨rfl, rfl⟩ := Prod.mk.inj h.symm
        rw [List.cons_append, List.nil_append]
        simp only [lexExp]
        cases ext with
        | nil => rw [if_neg he]
        | cons x xt => rw [if_neg he]
    | s :: t4 =>
      simp only [lexExp] at h
      by_cases he : e = 'e' ∨ e = 'E'
      · rw [if_pos he] at h
        by_cases hs : s = '+' ∨ s = '-'
        · rw [if_pos hs] at h
          by_cases hd : (t4.takeWhile isDigitCh) = []
          · rw [if_pos hd] at h
            obtain ⟨rfl, rfl⟩ := Prod.mk.inj h.symm
            exact absurd (h1 rfl) (fun hx => head_eE_absurd he rfl hx)
          · rw [if_neg hd] at h
            obtain ⟨rfl, rfl⟩ := Prod.mk.inj h.symm
            rw [List.cons_append, List.cons_append]
            simp only [lexExp]
            rw [if_pos he, if_pos hs]
            cases hdw : t4.dropWhile isDigitCh with
            | cons d r' =>
              obtain ⟨hT, hD⟩ := while_append_ne isDigitCh t4 ext (by rw [hdw]; simp)
              rw [hT, hD, if_neg hd, hdw]
            | nil =>
              have hext := extSafe_take_nil (h0 hdw)
              obtain ⟨hT0, hD0⟩ := while_append_nil isDigitCh t4 ext hdw
              have htw : t4.takeWhile isDigitCh = t4 := by
                have h3 := List.takeWhile_append_dropWhile isDigitCh t4
                rwa [hdw, List.append_nil] at h3
              have hT : (t4 ++ ext).takeWhile isDigitCh = t4 := by
                rw [hT0, hext.1, List.append_nil]
              have hD : (t4 ++ ext).dropWhile isDigitCh = ext := by
                rw [hD0, hext.2]
              rw [hT, hD, if_neg (show ¬ t4 = [] from by rw [← htw]; exact hd)]
              simp [htw, hdw]
        · rw [if_neg hs] at h
          by_cases hsd : isDigitCh s = true
          · rw [if_pos hsd] at h
            obtain ⟨rfl, rfl⟩ := Prod.mk.inj h.symm
            rw [List.cons_append, List.cons_append]
            simp only [lexExp]
            rw [if_pos he, if_neg hs, if_pos hsd]
            rw [show s :: (t4 ++ ext) = (s :: t4) ++ ext from rfl]
            cases hdw : (s :: t4).dropWhile isDigitCh with
            | cons d r' =>
              obtain ⟨hT, hD⟩ :=
                while_append_ne isDigitCh (s :: t4) ext (by rw [hdw]; simp)
              rw [hT, hD, hdw]
            | nil =>
              have hext := extSafe_take_nil (h0 hdw)
              obtain ⟨hT0, hD0⟩ := while_append_nil isDigitCh (s :: t4) ext hdw
              have htw : (s :: t4).takeWhile isDigitCh = s :: t4 := by
                have h3 := List.takeWhile_append_dropWhile isDigitCh (s :: t4)
                rwa [hdw, List.append_nil] at h3
              have hT : ((s :: t4) ++ ext).takeWhile isDigitCh = s :: t4 := by
                rw [hT0, hext.1, List.append_nil]
              have hD : ((s :: t4) ++ ext).dropWhile isDigitCh = ext := by
                rw [hD0, hext.2]
              rw [hT, hD]
              simp [htw, hdw]
          · rw [if_neg hsd] at h
            obtain ⟨rfl, rfl⟩ := Prod.mk.inj h.symm
            exact absurd (h1 rfl) (fun hx => head_eE_absurd he rfl hx)
      · rw [if_neg he] at h
        obtain ⟨rfl, rfl⟩ := Prod.mk.inj h.symm
        rw [List.cons_append, List.cons_append]
        simp only [lexExp]
        rw [if_neg he]

/-- The number scanner after the sign is stable under appending input that
starts at a token-breaking character (or appends to a broken-off rest). -/
theorem parseNumberCore_ext {neg : Bool} {tail : List Char} {v : Json}
    {rest : List Char} (ext : List Char)
    (h : parseNumberCore neg tail = some (v, rest))
    (hro : (∃ c t, rest = c :: t ∧ headSafe c) ∨ (rest = [] ∧ extSafeS ext)) :
    parseNumberCore neg (tail ++ ext) = some (v, rest ++ ext) := by
  rw [parseNumberCore] at h
  cases hli : lexInt tail with
  | none => rw [hli] at h; simp at h
  | some p =>
    obtain ⟨A, afterInt⟩ := p
    rw [hli] at h
    simp only at h
    obtain ⟨F, r2, hF⟩ : ∃ F r2, lexFrac afterInt = (F, r2) := ⟨_, _, rfl⟩
    rw [hF] at h
    obtain ⟨E, r3, hE⟩ : ∃ E r3, lexExp r2 = (E, r3) := ⟨_, _, rfl⟩
    rw [hE] at h
    simp only at h
    by_cases hif : F = [] ∧ E = []
    · rw [if_pos hif] at h
      simp only [Option.some.injEq, Prod.mk.injEq] at h
      obtain ⟨hv, hrest⟩ := h
      subst hrest
      have hr2 : r2 = afterInt := by
        have hsp := (lexFrac_split afterInt).1
        rw [hF] at hsp
        simpa [hif.1] using hsp.symm
      have hr3 : r3 = r2 := by
        have hsp := (lexExp_split r2).1
        rw [hE] at hsp
        simpa [hif.2] using hsp.symm
      have hIntC : afterInt = [] → extSafeS ext := by
        intro hnil
        rcases hro with ⟨c, t, hct, -⟩ | ⟨-, hsafe⟩
        · rw [hnil] at hct; exact absurd hct (by simp)
        · exact hsafe
      have hDotC : afterInt = ['.'] → extSafeS ext := by
        intro hdot
        rcases hro with ⟨c, t, hct, hcs⟩ | ⟨hnil, -⟩
        · rw [hdot] at hct
          obtain ⟨rfl, -⟩ := List.cons.inj hct
          exact absurd rfl hcs.2.1
        · rw [hdot] at hnil
          exact absurd hnil (by simp)
      have hLI := lexInt_ext ext hli hIntC
      have hF2 : lexFrac afterInt = ([], afterInt) := by rw [hF, hif.1, hr2]
      have hLF := lexFrac_ext ext hF2 hIntC hDotC
      have hE2 : lexExp afterInt = ([], afterInt) := by
        rw [← hr2, hE, hif.2, hr3]
      have h1E : ([] : List Char) = [] →
          (afterInt = [] ∨ ∃ c t, afterInt = c :: t ∧ c ≠ 'e' ∧ c ≠ 'E') := by
        intro _
        rcases hro with ⟨c, t, hct, hcs⟩ | ⟨hnil, -⟩
        · exact Or.inr ⟨c, t, hct, hcs.2.2.1, hcs.2.2.2⟩
        · exact Or.inl hnil
      have hLE := lexExp_ext ext hE2 hIntC h1E
      rw [parseNumberCore, hLI]
      simp only [hLF, hLE]
      rw [if_pos (⟨trivial, trivial⟩ : True ∧ True)]
      rw [hv]
    · rw [if_neg hif] at h
      simp only [Option.some.injEq, Prod.mk.injEq] at h
      obtain ⟨hv, hrest⟩ := h
      subst hrest
      have hai : afterInt ≠ [] := by
        intro hnil
        apply hif
        have hF3 : lexFrac ([] : List Char) = (F, r2) := by rw [← hnil]; exact hF
        have hFe : F = [] ∧ r2 = [] := by
          have h4 := hF3.symm
          simp only [lexFrac] at h4
          exact ⟨(Prod.mk.inj h4).1, (Prod.mk.inj h4).2⟩
        have hE3 : lexExp ([] : List Char) = (E, r3) := by rw [← hFe.2]; exact hE
        have hEe : E = [] := by
          have h4 := hE3.symm
          simp only [lexExp] at h4
          exact (Prod.mk.inj h4).1
        exact ⟨hFe.1, hEe⟩
      have hs0F : r2 = [] → extSafeS ext := by
        intro h2n
        have hE3 : lexExp ([] : List Char) = (E, r3) := by rw [← h2n]; exact hE
        have h3 : r3 = [] := by
          have h4 := hE3.symm
          simp only [lexExp] at h4
          exact (Prod.mk.inj h4).2
        rcases hro with ⟨c, t, hct, -⟩ | ⟨-, hsafe⟩
        · rw [h3] at hct; exact absurd hct (by simp)
        · exact hsafe
      have hs1F : r2 = ['.'] → extSafeS ext := by
        intro h2d
        have hE3 : lexExp ['.'] = (E, r3) := by rw [← h2d]; exact hE
        have h5 : lexExp ['.'] = ([], ['.']) := by
          simp only [lexExp]
          rw [if_neg (by decide : ¬ ('.' = 'e' ∨ '.' = 'E'))]
        rw [h5] at hE3
        have h3 : r3 = ['.'] := (Prod.mk.inj hE3).2.symm
        rcases hro with ⟨c, t, hct, hcs⟩ | ⟨hnil, -⟩
        · rw [h3] at hct
          obtain ⟨rfl, -⟩ := List.cons.inj hct
          exact absurd rfl hcs.2.1
        · rw [h3] at hnil
          exact absurd hnil (by simp)
      have hLF := lexFrac_ext ext hF hs0F hs1F
      have h0E : r3 = [] → extSafeS ext := by
        intro h3n
        rcases hro with ⟨c, t, hct, -⟩ | ⟨-, hsafe⟩
        · rw [h3n] at hct; exact absurd hct (by simp)
        · exact hsafe
      have h1E : E = [] → (r3 = [] ∨ ∃ c t, r3 = c :: t ∧ c ≠ 'e' ∧ c ≠ 'E') := by
        intro _
        rcases hro with ⟨c, t, hct, hcs⟩ | ⟨hnil, -⟩
        · exact Or.inr ⟨c, t, hct, hcs.2.2.1, hcs.2.2.2⟩
        · exact Or.inl hnil
      have hLE := lexExp_ext ext hE h0E h1E
      have hLI := lexInt_ext ext hli (fun hnil => absurd hnil hai)
      rw [parseNumberCore, hLI]
      simp only [hLF, hLE]
      rw [if_neg hif]
      rw [hv]

/-- The number lexer is stable under appending input that starts at a
token-breaking character. -/
theorem parseNumber_ext {cs : List Char} {v : Json} {rest : List Char}
    (ext : List Char) (h : parseNumber cs = some (v, rest))
    (hro : (∃ c t, rest = c :: t ∧ headSafe c) ∨ (rest = [] ∧ extSafeS ext)) :
    parseNumber (cs ++ ext) = some (v, rest ++ ext) := by
  match cs with
  | [] => simp [parseNumber, parseNumberCore, lexInt] at h
  | c :: t =>
    simp only [parseNumber] at h
    rw [List.cons_append]
    simp only [parseNumber]
    by_cases hm : c = '-'
    · rw [if_pos hm] at h ⊢
      exact parseNumberCore_ext ext h hro
    · rw [if_neg hm] at h ⊢
      rw [← List.cons_append]
      exact parseNumberCore_ext ext h hro

/-! ### Fuel monotonicity of the scanner -/

mutual

/-- A successful value scan stays successful with one more unit of fuel. -/
theorem parseVal_mono : ∀ f cs r, parseVal f cs = some r →
    parseVal (Nat.succ f) cs = some r
  | 0, cs, r, h => by simp [parseVal] at h
  | Nat.succ f, cs, r, h => by
    cases cs with
    | nil => simp [parseVal] at h
    | cons c rest =>
      simp only [parseVal] at h ⊢
      by_cases h1 : c = 'n'
      · rw [if_pos h1] at h ⊢; exact h
      rw [if_neg h1] at h ⊢
      by_cases h2 : c = 't'
      · rw [if_pos h2] at h ⊢; exact h
      rw [if_neg h2] at h ⊢
      by_cases h3 : c = 'f'
      · rw [if_pos h3] at h ⊢; exact h
      rw [if_neg h3] at h ⊢
      by_cases h4 : c = 'N'
      · rw [if_pos h4] at h ⊢; exact h
      rw [if_neg h4] at h ⊢
      by_cases h5 : c = 'I'
      · rw [if_pos h5] at h ⊢; exact h
      rw [if_neg h5] at h ⊢
      by_cases h6 : c = '-'
      · rw [if_pos h6] at h ⊢; exact h
      rw [if_neg h6] at h ⊢
      by_cases h7 : c = '"'
      · rw [if_pos h7] at h ⊢
        cases hsb : parseStrBody f rest [] with
        | none => rw [hsb] at h; simp at h
        | some p =>
          rw [hsb] at h
          rw [parseStrBody_mono f rest [] p hsb]
          exact h
      rw [if_neg h7] at h ⊢
      by_cases h8 : c = '\x7b'
      · rw [if_pos h8] at h ⊢
        exact parseObjBody_mono f rest r h
      rw [if_neg h8] at h ⊢
      by_cases h9 : c = '['
      · rw [if_pos h9] at h ⊢
        exact parseArrBody_mono f rest r h
      rw [if_neg h9] at h ⊢
      by_cases h10 : isDigitCh c = true
      · rw [if_pos h10] at h ⊢; exact h
      · rw [if_neg h10] at h ⊢; exact h

/-- A successful string-body scan stays successful with one more unit of
fuel. -/
theorem parseStrBody_mono : ∀ f cs acc p, parseStrBody f cs acc = some p →
    parseStrBody (Nat.succ f) cs acc = some p
  | 0, cs, acc, p, h => by simp [parseStrBody] at h
  | Nat.succ f, cs, acc, p, h => by
    generalize hf2 : Nat.succ f = f2
    cases cs with
    | nil => simp [parseStrBody] at h
    | cons c r =>
      simp only [parseStrBody] at h
      by_cases hq : c = '"'
      · rw [if_pos hq] at h
        simp only [parseStrBody]
        rw [if_pos hq]
        exact h
      · rw [if_neg hq] at h
        by_cases hb : c = '\\'
        · rw [if_pos hb] at h
          cases r with
          | nil => simp at h
          | cons e r1 =>
            simp only at h
            by_cases hu : e = 'u'
            · rw [if_pos hu] at h
              rcases r1 with _ | ⟨x1, _ | ⟨x2, _ | ⟨x3, _ | ⟨x4, r2⟩⟩⟩⟩
              · simp at h
              · simp at h
              · simp at h
              · simp at h
              · simp only at h
                cases hx : hex4 x1 x2 x3 x4 with
                | none => rw [hx] at h; simp at h
                | some n =>
                  rw [hx] at h
                  simp only at h
                  by_cases hsur : 0xD800 ≤ n ∧ n ≤ 0xDBFF
                  · rw [if_pos hsur] at h
                    rcases r2 with _ | ⟨b1, _ | ⟨b2, _ | ⟨g1, _ | ⟨g2, _ | ⟨g3, _ | ⟨g4, r3⟩⟩⟩⟩⟩⟩
                    · simp only [parseStrBody, hx]
                      rw [if_neg hq, if_pos hb, if_pos hu, if_pos hsur, ← hf2]
                      exact parseStrBody_mono f [] (uChar n :: acc) p (by simpa using h)
                    · simp only [parseStrBody, hx]
                      rw [if_neg hq, if_pos hb, if_pos hu, if_pos hsur, ← hf2]
                      exact parseStrBody_mono f [b1] (uChar n :: acc) p (by simpa using h)
                    · simp only [parseStrBody, hx]
                      rw [if_neg hq, if_pos hb, if_pos hu, if_pos hsur, ← hf2]
                      exact parseStrBody_mono f [b1, b2] (uChar n :: acc) p (by simpa using h)
                    · simp only [parseStrBody, hx]
                      rw [if_neg hq, if_pos hb, if_pos hu, if_pos hsur, ← hf2]
                      exact parseStrBody_mono f [b1, b2, g1] (uChar n :: acc) p
                        (by simpa using h)
                    · simp only [parseStrBody, hx]
                      rw [if_neg hq, if_pos hb, if_pos hu, if_pos hsur, ← hf2]
                      exact parseStrBody_mono f [b1, b2, g1, g2] (uChar n :: acc) p
                        (by simpa using h)
                    · simp only [parseStrBody, hx]
                      rw [if_neg hq, if_pos hb, if_pos hu, if_pos hsur, ← hf2]
                      exact parseStrBody_mono f [b1, b2, g1, g2, g3] (uChar n :: acc) p
                        (by simpa using h)
                    · simp only at h
                      by_cases hbu : b1 = '\\' ∧ b2 = 'u'
                      · rw [if_pos hbu] at h
                        cases hg : hex4 g1 g2 g3 g4 with
                        | none =>
                          rw [hg] at h
                          simp only [parseStrBody, hx, hg]
                          rw [if_neg hq, if_pos hb, if_pos hu, if_pos hsur, if_pos hbu, ← hf2]
                          exact parseStrBody_mono f
                            (b1 :: b2 :: g1 :: g2 :: g3 :: g4 :: r3) (uChar n :: acc) p h
                        | some m =>
                          rw [hg] at h
                          simp only at h
                          by_cases hlow : 0xDC00 ≤ m ∧ m ≤ 0xDFFF
                          · rw [if_pos hlow] at h
                            simp only [parseStrBody, hx, hg]
                            rw [if_neg hq, if_pos hb, if_pos hu, if_pos hsur, if_pos hbu,
                              if_pos hlow, ← hf2]
                            exact parseStrBody_mono f r3
                              (Char.ofNat (0x10000 + (n - 0xD800) * 0x400 + (m - 0xDC00)) :: acc)
                              p h
                          · rw [if_neg hlow] at h
                            simp only [parseStrBody, hx, hg]
                            rw [if_neg hq, if_pos hb, if_pos hu, if_pos hsur, if_pos hbu,
                              if_neg hlow, ← hf2]
                            exact parseStrBody_mono f
                              (b1 :: b2 :: g1 :: g2 :: g3 :: g4 :: r3) (uChar n :: acc) p h
                      · rw [if_neg hbu] at h
                        simp only [parseStrBody, hx]
                        rw [if_neg hq, if_pos hb, if_pos hu, if_pos hsur, if_neg hbu, ← hf2]
                        exact parseStrBody_mono f
                          (b1 :: b2 :: g1 :: g2 :: g3 :: g4 :: r3) (uChar n :: acc) p h
                  · rw [if_neg hsur] at h
                    simp only [parseStrBody, hx]
                    rw [if_neg hq, if_pos hb, if_pos hu, if_neg hsur, ← hf2]
                    exact parseStrBody_mono f r2 (uChar n :: acc) p h
            · rw [if_neg hu] at h
              cases hse : simpleEscape e with
              | none => rw [hse] at h; simp at h
              | some d =>
                rw [hse] at h
                simp only [parseStrBody, hse]
                rw [if_neg hq, if_pos hb, if_neg hu, ← hf2]
                exact parseStrBody_mono f r1 (d :: acc) p h
        · rw [if_neg hb] at h
          by_cases hctl : c.toNat < 0x20
          · rw [if_pos hctl] at h
            simp at h
          · rw [if_neg hctl] at h
            simp only [parseStrBody]
            rw [if_neg hq, if_neg hb, if_neg hctl, ← hf2]
            exact parseStrBody_mono f r (c :: acc) p h

/-- A successful object scan stays successful with one more unit of fuel. -/
theorem parseObjBody_mono : ∀ f cs r, parseObjBody f cs = some r →
    parseObjBody (Nat.succ f) cs = some r
  | 0, cs, r, h => by simp [parseObjBody] at h
  | Nat.succ f, cs, r, h => by
    simp only [parseObjBody] at h ⊢
    cases hsw : skipWs cs with
    | nil => rw [hsw] at h; simp at h
    | cons c r0 =>
      rw [hsw] at h
      simp only at h ⊢
      by_cases hc : c = '\x7d'
      · rw [if_pos hc] at h ⊢; exact h
      · rw [if_neg hc] at h ⊢
        exact parseMembers_mono f _ _ r h

/-- A successful member-loop scan stays successful with one more unit of
fuel. -/
theorem parseMembers_mono : ∀ f cs acc r, parseMembers f cs acc = some r →
    parseMembers (Nat.succ f) cs acc = some r
  | 0, cs, acc, r, h => by simp [parseMembers] at h
  | Nat.succ f, cs, acc, r, h => by
    cases cs with
    | nil => simp [parseMembers] at h
    | cons c r0 =>
      simp only [parseMembers] at h ⊢
      by_cases hc : c = '"'
      · rw [if_pos hc] at h ⊢
        cases hsb : parseStrBody f r0 [] with
        | none => rw [hsb] at h; simp at h
        | some q =>
          obtain ⟨key, r1⟩ := q
          rw [hsb] at h
          rw [parseStrBody_mono f r0 [] _ hsb]
          simp only at h ⊢
          cases hsw1 : skipWs r1 with
          | nil => rw [hsw1] at h; simp at h
          | cons c2 r2 =>
            rw [hsw1] at h
            simp only at h ⊢
            by_cases hc2 : c2 = ':'
            case neg =>
              rw [if_neg hc2] at h ⊢
              exact h
            case pos =>
              rw [if_pos hc2] at h ⊢
              cases hpv : parseVal f (skipWs r2) with
              | none => rw [hpv] at h; simp at h
              | some q2 =>
                obtain ⟨v0, r3⟩ := q2
                rw [hpv] at h
                rw [parseVal_mono f _ _ hpv]
                simp only at h ⊢
                cases hsw3 : skipWs r3 with
                | nil => rw [hsw3] at h; simp at h
                | cons c3 r4 =>
                  rw [hsw3] at h
                  simp only at h ⊢
                  by_cases hc3 : c3 = ','
                  · rw [if_pos hc3] at h ⊢
                    exact parseMembers_mono f _ _ r h
                  rw [if_neg hc3] at h ⊢
                  by_cases hc3b : c3 = '\x7d'
                  · rw [if_pos hc3b] at h ⊢; exact h
                  · rw [if_neg hc3b] at h ⊢; exact h
      · rw [if_neg hc] at h ⊢; exact h

/-- A successful array scan stays successful with one more unit of fuel. -/
theorem parseArrBody_mono : ∀ f cs r, parseArrBody f cs = some r →
    parseArrBody (Nat.succ f) cs = some r
  | 0, cs, r, h => by simp [parseArrBody] at h
  | Nat.succ f, cs, r, h => by
    simp only [parseArrBody] at h ⊢
    cases hsw : skipWs cs with
    | nil => rw [hsw] at h; simp at h
    | cons c r0 =>
      rw [hsw] at h
      simp only at h ⊢
      by_cases hc : c = ']'
      · rw [if_pos hc] at h ⊢; exact h
      · rw [if_neg hc] at h ⊢
        exact parseItems_mono f _ _ r h

/-- A successful item-loop scan stays successful with one more unit of
fuel. -/
theorem parseItems_mono : ∀ f cs acc r, parseItems f cs acc = some r →
    parseItems (Nat.succ f) cs acc = some r
  | 0, cs, acc, r, h => by simp [parseItems] at h
  | Nat.succ f, cs, acc, r, h => by
    simp only [parseItems] at h ⊢
    cases hpv : parseVal f cs with
    | none => rw [hpv] at h; simp at h
    | some q =>
      obtain ⟨v0, r1⟩ := q
      rw [hpv] at h
      rw [parseVal_mono f _ _ hpv]
      simp only at h ⊢
      cases hsw : skipWs r1 with
      | nil => rw [hsw] at h; simp at h
      | cons c2 r2 =>
        rw [hsw] at h
        simp only at h ⊢
        by_cases hc2 : c2 = ','
        · rw [if_pos hc2] at h ⊢
          exact parseItems_mono f _ _ r h
        rw [if_neg hc2] at h ⊢
        by_cases hc2b : c2 = ']'
        · rw [if_pos hc2b] at h ⊢; exact h
        · rw [if_neg hc2b] at h ⊢; exact h

end

/-- A successful value scan stays successful with any larger fuel. -/
theorem parseVal_mono_le {f g : Nat} (hle : f ≤ g) {cs : List Char}
    {r : Json × List Char} (h : parseVal f cs = some r) :
    parseVal g cs = some r := by
  obtain ⟨k, rfl⟩ := Nat.exists_eq_add_of_le hle
  clear hle
  induction k with
  | zero => exact h
  | succ k ih => exact parseVal_mono (f + k) cs r ih

/-! ### Append stability of the scanner -/

/-- Dangling escape: a lone backslash never scans. -/
theorem strBody_back1 : ∀ f acc, parseStrBody f ['\\'] acc = none
  | 0, _ => rfl
  | Nat.succ _, _ => rfl

/-- Dangling unicode escape with no digits never scans. -/
theorem strBody_back2 : ∀ f acc, parseStrBody f ['\\', 'u'] acc = none
  | 0, _ => rfl
  | Nat.succ _, _ => rfl

/-- Dangling unicode escape with one digit never scans. -/
theorem strBody_back3 : ∀ f a acc, parseStrBody f ['\\', 'u', a] acc = none
  | 0, _, _ => rfl
  | Nat.succ _, _, _ => rfl

/-- Dangling unicode escape with two digits never scans. -/
theorem strBody_back4 : ∀ f a b acc, parseStrBody f ['\\', 'u', a, b] acc = none
  | 0, _, _, _ => rfl
  | Nat.succ _, _, _, _ => rfl

/-- Dangling unicode escape with three digits never scans. -/
theorem strBody_back5 : ∀ f a b c acc, parseStrBody f ['\\', 'u', a, b, c] acc = none
  | 0, _, _, _, _ => rfl
  | Nat.succ _, _, _, _, _ => rfl

/-- A digit is not the letter I. -/
theorem digit_ne_I {c : Char} (h : isDigitCh c = true) : c ≠ 'I' := by
  rw [isDigitCh, decide_eq_true_eq] at h
  simp only [List.mem_cons, List.not_mem_nil, or_false] at h
  rcases h with rfl | rfl | rfl | rfl | rfl | rfl | rfl | rfl | rfl | rfl <;> decide

/-- The item loop rejects empty input at every fuel. -/
theorem parseItems_nil : ∀ f acc, parseItems f [] acc = none
  | 0, _ => rfl
  | Nat.succ f, acc => by simp [parseItems, parseVal_nil]

/-- A head mismatch refutes a boolean prefix. -/
theorem isPrefixOf_head_false {a b : Char} (l1 l2 : List Char) (hne : a ≠ b) :
    ((a :: l1).isPrefixOf (b :: l2)) = false := by
  rw [List.isPrefixOf, Bool.and_eq_false_iff]
  left
  rw [beq_eq_false_iff_ne]
  exact hne

mutual

/-- A successful object scan is stable under appending further input. -/
theorem parseObjBody_ext : ∀ f cs v rest ext, parseObjBody f cs = some (v, rest) →
    parseObjBody f (cs ++ ext) = some (v, rest ++ ext)
  | 0, cs, v, rest, ext, h => by simp [parseObjBody] at h
  | Nat.succ f, cs, v, rest, ext, h => by
    simp only [parseObjBody] at h
    cases hsw : skipWs cs with
    | nil => rw [hsw] at h; simp at h
    | cons c r0 =>
      rw [hsw] at h
      simp only at h
      have hswE : skipWs (cs ++ ext) = c :: (r0 ++ ext) := skipWs_append_cons ext hsw
      by_cases hc : c = '\x7d'
      · rw [if_pos hc] at h
        simp only [Option.some.injEq, Prod.mk.injEq] at h
        obtain ⟨hv, hr⟩ := h
        subst hr
        simp only [parseObjBody]
        rw [hswE]
        simp only
        rw [if_pos hc, hv]
      · rw [if_neg hc] at h
        have IH := parseMembers_ext f (c :: r0) [] v rest ext h
        simp only [parseObjBody]
        rw [hswE]
        simp only
        rw [if_neg hc]
        exact IH

/-- A successful member-loop scan is stable under appending further input. -/
theorem parseMembers_ext : ∀ f cs acc v rest ext, parseMembers f cs acc = some (v, rest) →
    parseMembers f (cs ++ ext) acc = some (v, rest ++ ext)
  | 0, cs, acc, v, rest, ext, h => by simp [parseMembers] at h
  | Nat.succ f, cs, acc, v, rest, ext, h => by
    cases cs with
    | nil => simp [parseMembers] at h
    | cons c r0 =>
      simp only [parseMembers] at h
      by_cases hc : c = '"'
      case neg => rw [if_neg hc] at h; simp at h
      case pos =>
      rw [if_pos hc] at h
      cases hsb : parseStrBody f r0 [] with
      | none => rw [hsb] at h; simp at h
      | some q =>
        obtain ⟨key, r1⟩ := q
        rw [hsb] at h
        simp only at h
        cases hsw1 : skipWs r1 with
        | nil => rw [hsw1] at h; simp at h
        | cons c2 r2 =>
          rw [hsw1] at h
          simp only at h
          by_cases hc2 : c2 = ':'
          case neg => rw [if_neg hc2] at h; simp at h
          case pos =>
          rw [if_pos hc2] at h
          cases hpv : parseVal f (skipWs r2) with
          | none => rw [hpv] at h; simp at h
          | some q2 =>
            obtain ⟨v0, r3⟩ := q2
            rw [hpv] at h
            simp only at h
            cases hsw3 : skipWs r3 with
            | nil => rw [hsw3] at h; simp at h
            | cons c3 r4 =>
              rw [hsw3] at h
              simp only at h
              have hsbE := parseStrBody_ext f r0 [] key r1 ext hsb
              have hswE1 : skipWs (r1 ++ ext) = c2 :: (r2 ++ ext) := skipWs_append_cons ext hsw1
              have hr2ne : skipWs r2 ≠ [] := by
                intro hz
                rw [hz, parseVal_nil] at hpv
                exact absurd hpv (by simp)
              obtain ⟨cz, rz, hzz⟩ : ∃ cz rz, skipWs r2 = cz :: rz := by
                cases hzz : skipWs r2 with
                | nil => exact absurd hzz hr2ne
                | cons a b => exact ⟨a, b, rfl⟩
              have hswE2 : skipWs (r2 ++ ext) = skipWs r2 ++ ext := by
                rw [skipWs_append_cons ext hzz, hzz]
                rfl
              have hswE3 : skipWs (r3 ++ ext) = c3 :: (r4 ++ ext) := skipWs_append_cons ext hsw3
              by_cases hc3 : c3 = ','
              · rw [if_pos hc3] at h
                have hvE : parseVal f (skipWs r2 ++ ext) = some (v0, r3 ++ ext) := by
                  refine parseVal_ext f (skipWs r2) v0 r3 ext hpv (Or.inl (boundary_head hsw3 ?_))
                  rw [hc3]
                  exact ⟨by decide, by decide, by decide, by decide⟩
                cases hsw4 : skipWs r4 with
                | nil =>
                  rw [hsw4, parseMembers_nil] at h
                  exact absurd h (by simp)
                | cons c4 r5 =>
                  rw [hsw4] at h
                  have IH := parseMembers_ext f (c4 :: r5) _ v rest ext h
                  rw [List.cons_append]
                  simp only [parseMembers]
                  rw [if_pos hc, hsbE]
                  simp only
                  rw [hswE1]
                  simp only
                  rw [if_pos hc2, hswE2, hvE]
                  simp only
                  rw [hswE3]
                  simp only
                  rw [if_pos hc3, skipWs_append_cons ext hsw4]
                  exact IH
              · by_cases hc3b : c3 = '\x7d'
                · rw [if_neg hc3, if_pos hc3b] at h
                  simp only [Option.some.injEq, Prod.mk.injEq] at h
                  obtain ⟨hv, hr⟩ := h
                  subst hr
                  have hvE : parseVal f (skipWs r2 ++ ext) = some (v0, r3 ++ ext) := by
                    refine parseVal_ext f (skipWs r2) v0 r3 ext hpv (Or.inl (boundary_head hsw3 ?_))
                    rw [hc3b]
                    exact ⟨by decide, by decide, by decide, by decide⟩
                  rw [List.cons_append]
                  simp only [parseMembers]
                  rw [if_pos hc, hsbE]
                  simp only
                  rw [hswE1]
                  simp only
                  rw [if_pos hc2, hswE2, hvE]
                  simp only
                  rw [hswE3]
                  simp only
                  rw [if_neg hc3, if_pos hc3b, hv]
                · rw [if_neg hc3, if_neg hc3b] at h
                  simp at h

/-- A successful array scan is stable under appending further input. -/
theorem parseArrBody_ext : ∀ f cs v rest ext, parseArrBody f cs = some (v, rest) →
    parseArrBody f (cs ++ ext) = some (v, rest ++ ext)
  | 0, cs, v, rest, ext, h => by simp [parseArrBody] at h
  | Nat.succ f, cs, v, rest, ext, h => by
    simp only [parseArrBody] at h
    cases hsw : skipWs cs with
    | nil => rw [hsw] at h; simp at h
    | cons c r0 =>
      rw [hsw] at h
      simp only at h
      have hswE : skipWs (cs ++ ext) = c :: (r0 ++ ext) := skipWs_append_cons ext hsw
      by_cases hc : c = ']'
      · rw [if_pos hc] at h
        simp only [Option.some.injEq, Prod.mk.injEq] at h
        obtain ⟨hv, hr⟩ := h
        subst hr
        simp only [parseArrBody]
        rw [hswE]
        simp only
        rw [if_pos hc, hv]
      · rw [if_neg hc] at h
        have IH := parseItems_ext f (c :: r0) [] v rest ext h
        simp only [parseArrBody]
        rw [hswE]
        simp only
        rw [if_neg hc]
        exact IH

/-- A successful item-loop scan is stable under appending further input. -/
theorem parseItems_ext : ∀ f cs acc v rest ext, parseItems f cs acc = some (v, rest) →
    parseItems f (cs ++ ext) acc = some (v, rest ++ ext)
  | 0, cs, acc, v, rest, ext, h => by simp [parseItems] at h
  | Nat.succ f, cs, acc, v, rest, ext, h => by
    simp only [parseItems] at h
    cases hpv : parseVal f cs with
    | none => rw [hpv] at h; simp at h
    | some q =>
      obtain ⟨v0, r1⟩ := q
      rw [hpv] at h
      simp only at h
      cases hsw : skipWs r1 with
      | nil => rw [hsw] at h; simp at h
      | cons c2 r2 =>
        rw [hsw] at h
        simp only at h
        by_cases hc2 : c2 = ','
        · rw [if_pos hc2] at h
          have hvE : parseVal f (cs ++ ext) = some (v0, r1 ++ ext) := by
            refine parseVal_ext f cs v0 r1 ext hpv (Or.inl (boundary_head hsw ?_))
            rw [hc2]
            exact ⟨by decide, by decide, by decide, by decide⟩
          have hswE : skipWs (r1 ++ ext) = c2 :: (r2 ++ ext) := skipWs_append_cons ext hsw
          cases hsw2 : skipWs r2 with
          | nil =>
            rw [hsw2, parseItems_nil] at h
            exact absurd h (by simp)
          | cons c4 r5 =>
            rw [hsw2] at h
            have IH := parseItems_ext f (c4 :: r5) _ v rest ext h
            simp only [parseItems]
            rw [hvE]
            simp only
            rw [hswE]
            simp only
            rw [if_pos hc2, skipWs_append_cons ext hsw2]
            exact IH
        · by_cases hc2b : c2 = ']'
          · rw [if_neg hc2, if_pos hc2b] at h
            simp only [Option.some.injEq, Prod.mk.injEq] at h
            obtain ⟨hv, hr⟩ := h
            subst hr
            have hvE : parseVal f (cs ++ ext) = some (v0, r1 ++ ext) := by
              refine parseVal_ext f cs v0 r1 ext hpv (Or.inl (boundary_head hsw ?_))
              rw [hc2b]
              exact ⟨by decide, by decide, by decide, by decide⟩
            have hswE : skipWs (r1 ++ ext) = c2 :: (r2 ++ ext) := skipWs_append_cons ext hsw
            simp only [parseItems]
            rw [hvE]
            simp only
            rw [hswE]
            simp only
            rw [if_neg hc2, if_pos hc2b, hv]
          · rw [if_neg hc2, if_neg hc2b] at h
            simp at h

/-- A successful value scan is stable under appending input that respects
the token boundary of its rest. -/
theorem parseVal_ext : ∀ f cs v rest ext, parseVal f cs = some (v, rest) →
    restOk v rest ext → parseVal f (cs ++ ext) = some (v, rest ++ ext)
  | 0, cs, v, rest, ext, h, _ => by simp [parseVal] at h
  | Nat.succ f, cs, v, rest, ext, h, hro => by
    cases cs with
    | nil => simp [parseVal] at h
    | cons c rest0 =>
      simp only [parseVal] at h
      rw [List.cons_append]
      by_cases h1 : c = 'n'
      · rw [if_pos h1] at h
        by_cases hp : ['u', 'l', 'l'].isPrefixOf rest0 = true
        · rw [if_pos hp] at h
          simp only [Option.some.injEq, Prod.mk.injEq] at h
          obtain ⟨hv, hr⟩ := h
          subst hr
          obtain ⟨hp2, hd2⟩ := prefix_ext ext hp
          have hd3 : (rest0 ++ ext).drop 3 = rest0.drop 3 ++ ext := by simpa using hd2
          simp only [parseVal]
          rw [if_pos h1, if_pos hp2, hd3, hv]
        · rw [if_neg hp] at h
          simp at h
      rw [if_neg h1] at h
      by_cases h2 : c = 't'
      · rw [if_pos h2] at h
        by_cases hp : ['r', 'u', 'e'].isPrefixOf rest0 = true
        · rw [if_pos hp] at h
          simp only [Option.some.injEq, Prod.mk.injEq] at h
          obtain ⟨hv, hr⟩ := h
          subst hr
          obtain ⟨hp2, hd2⟩ := prefix_ext ext hp
          have hd3 : (rest0 ++ ext).drop 3 = rest0.drop 3 ++ ext := by simpa using hd2
          simp only [parseVal]
          rw [if_neg h1, if_pos h2, if_pos hp2, hd3, hv]
        · rw [if_neg hp] at h
          simp at h
      rw [if_neg h2] at h
      by_cases h3 : c = 'f'
      · rw [if_pos h3] at h
        by_cases hp : ['a', 'l', 's', 'e'].isPrefixOf rest0 = true
        · rw [if_pos hp] at h
          simp only [Option.some.injEq, Prod.mk.injEq] at h
          obtain ⟨hv, hr⟩ := h
          subst hr
          obtain ⟨hp2, hd2⟩ := prefix_ext ext hp
          have hd3 : (rest0 ++ ext).drop 4 = rest0.drop 4 ++ ext := by simpa using hd2
          simp only [parseVal]
          rw [if_neg h1, if_neg h2, if_pos h3, if_pos hp2, hd3, hv]
        · rw [if_neg hp] at h
          simp at h
      rw [if_neg h3] at h
      by_cases h4 : c = 'N'
      · rw [if_pos h4] at h
        by_cases hp : ['a', 'N'].isPrefixOf rest0 = true
        · rw [if_pos hp] at h
          simp only [Option.some.injEq, Prod.mk.injEq] at h
          obtain ⟨hv, hr⟩ := h
          subst hr
          obtain ⟨hp2, hd2⟩ := prefix_ext ext hp
          have hd3 : (rest0 ++ ext).drop 2 = rest0.drop 2 ++ ext := by simpa using hd2
          simp only [parseVal]
          rw [if_neg h1, if_neg h2, if_neg h3, if_pos h4, if_pos hp2, hd3, hv]
        · rw [if_neg hp] at h
          simp at h
      rw [if_neg h4] at h
      by_cases h5 : c = 'I'
      · rw [if_pos h5] at h
        by_cases hp : ['n', 'f', 'i', 'n', 'i', 't', 'y'].isPrefixOf rest0 = true
        · rw [if_pos hp] at h
          simp only [Option.some.injEq, Prod.mk.injEq] at h
          obtain ⟨hv, hr⟩ := h
          subst hr
          obtain ⟨hp2, hd2⟩ := prefix_ext ext hp
          have hd3 : (rest0 ++ ext).drop 7 = rest0.drop 7 ++ ext := by simpa using hd2
          simp only [parseVal]
          rw [if_neg h1, if_neg h2, if_neg h3, if_neg h4, if_pos h5, if_pos hp2, hd3, hv]
        · rw [if_neg hp] at h
          simp at h
      rw [if_neg h5] at h
      by_cases h6 : c = '-'
      · rw [if_pos h6] at h
        by_cases hp : ['I', 'n', 'f', 'i', 'n', 'i', 't', 'y'].isPrefixOf rest0 = true
        · rw [if_pos hp] at h
          simp only [Option.some.injEq, Prod.mk.injEq] at h
          obtain ⟨hv, hr⟩ := h
          subst hr
          obtain ⟨hp2, hd2⟩ := prefix_ext ext hp
          have hd3 : (rest0 ++ ext).drop 8 = rest0.drop 8 ++ ext := by simpa using hd2
          simp only [parseVal]
          rw [if_neg h1, if_neg h2, if_neg h3, if_neg h4, if_neg h5, if_pos h6, if_pos hp2,
            hd3, hv]
        · rw [if_neg hp] at h
          have hsh := parseNumber_shape h
          have hro2 : (∃ c t, rest = c :: t ∧ headSafe c) ∨ (rest = [] ∧ extSafeS ext) := by
            rcases hro with hA | hB | ⟨hnil, hint, hfl⟩
            · exact Or.inl hA
            · exact Or.inr hB
            · rcases hsh with ⟨n, rfl⟩ | ⟨l, rfl⟩
              · exact absurd rfl (hint n)
              · exact absurd rfl (hfl l)
          have hnum := parseNumber_ext ext h hro2
          have hcore : parseNumberCore true rest0 = some (v, rest) := by
            have h7 := h
            simp only [parseNumber] at h7
            rw [if_pos h6] at h7
            exact h7
          rw [parseNumberCore] at hcore
          cases hli : lexInt rest0 with
          | none => rw [hli] at hcore; simp at hcore
          | some pq =>
            obtain ⟨A, aI⟩ := pq
            obtain ⟨hti, hAne, hAd⟩ := lexInt_split hli
            obtain ⟨a, A2, rfl⟩ : ∃ a A2, A = a :: A2 := by
              cases A with
              | nil => exact absurd rfl hAne
              | cons a A2 => exact ⟨a, A2, rfl⟩
            have hr0 : rest0 = a :: (A2 ++ aI) := by rw [hti]; rfl
            have hda : isDigitCh a = true := hAd a (by simp)
            have hInfF : (['I', 'n', 'f', 'i', 'n', 'i', 't', 'y'].isPrefixOf
                (rest0 ++ ext)) = false := by
              rw [hr0, List.cons_append]
              exact isPrefixOf_head_false _ _ (fun he => (digit_ne_I hda) he.symm)
            simp only [parseVal]
            rw [if_neg h1, if_neg h2, if_neg h3, if_neg h4, if_neg h5, if_pos h6,
              if_neg (by rw [hInfF]; simp)]
            rw [← List.cons_append]
            exact hnum
      rw [if_neg h6] at h
      by_cases h7 : c = '"'
      · rw [if_pos h7] at h
        cases hsb : parseStrBody f rest0 [] with
        | none => rw [hsb] at h; simp at h
        | some p =>
          obtain ⟨content, r⟩ := p
          rw [hsb] at h
          simp only [Option.some.injEq, Prod.mk.injEq] at h
          obtain ⟨hv, hr⟩ := h
          subst hr
          have hsbE := parseStrBody_ext f rest0 [] content r ext hsb
          simp only [parseVal]
          rw [if_neg h1, if_neg h2, if_neg h3, if_neg h4, if_neg h5, if_neg h6, if_pos h7,
            hsbE]
          simp only
          rw [hv]
      rw [if_neg h7] at h
      by_cases h8 : c = '\x7b'
      · rw [if_pos h8] at h
        have hE := parseObjBody_ext f rest0 v rest ext h
        simp only [parseVal]
        rw [if_neg h1, if_neg h2, if_neg h3, if_neg h4, if_neg h5, if_neg h6, if_neg h7,
          if_pos h8]
        exact hE
      rw [if_neg h8] at h
      by_cases h9 : c = '['
      · rw [if_pos h9] at h
        have hE := parseArrBody_ext f rest0 v rest ext h
        simp only [parseVal]
        rw [if_neg h1, if_neg h2, if_neg h3, if_neg h4, if_neg h5, if_neg h6, if_neg h7,
          if_neg h8, if_pos h9]
        exact hE
      rw [if_neg h9] at h
      by_cases h10 : isDigitCh c = true
      · rw [if_pos h10] at h
        have hsh := parseNumber_shape h
        have hro2 : (∃ c t, rest = c :: t ∧ headSafe c) ∨ (rest = [] ∧ extSafeS ext) := by
          rcases hro with hA | hB | ⟨hnil, hint, hfl⟩
          · exact Or.inl hA
          · exact Or.inr hB
          · rcases hsh with ⟨n, rfl⟩ | ⟨l, rfl⟩
            · exact absurd rfl (hint n)
            · exact absurd rfl (hfl l)
        have hnum := parseNumber_ext ext h hro2
        simp only [parseVal]
        rw [if_neg h1, if_neg h2, if_neg h3, if_neg h4, if_neg h5, if_neg h6, if_neg h7,
          if_neg h8, if_neg h9, if_pos h10]
        rw [← List.cons_append]
        exact hnum
      · rw [if_neg h10] at h
        simp at h

/-- A successful string-body scan is stable under appending further input:
the scan already ended at a closing quote. -/
theorem parseStrBody_ext : ∀ f cs acc content rest ext,
    parseStrBody f cs acc = some (content, rest) →
    parseStrBody f (cs ++ ext) acc = some (content, rest ++ ext)
  | 0, cs, acc, content, rest, ext, h => by simp [parseStrBody] at h
  | Nat.succ f, cs, acc, content, rest, ext, h => by
    cases cs with
    | nil => simp [parseStrBody] at h
    | cons c r =>
      simp only [parseStrBody] at h
      rw [List.cons_append]
      by_cases hq : c = '"'
      · rw [if_pos hq] at h
        simp only [Option.some.injEq, Prod.mk.injEq] at h
        obtain ⟨hv, hr⟩ := h
        subst hr
        simp only [parseStrBody]
        rw [if_pos hq, hv]
      · rw [if_neg hq] at h
        by_cases hb : c = '\\'
        · rw [if_pos hb] at h
          cases r with
          | nil => simp at h
          | cons e r1 =>
            simp only at h
            by_cases hu : e = 'u'
            · rw [if_pos hu] at h
              rcases r1 with _ | ⟨x1, _ | ⟨x2, _ | ⟨x3, _ | ⟨x4, r2⟩⟩⟩⟩
              · simp at h
              · simp at h
              · simp at h
              · simp at h
              · simp only at h
                cases hx : hex4 x1 x2 x3 x4 with
                | none => rw [hx] at h; simp at h
                | some n =>
                  rw [hx] at h
                  simp only at h
                  by_cases hsur : 0xD800 ≤ n ∧ n ≤ 0xDBFF
                  · rw [if_pos hsur] at h
                    rcases r2 with _ | ⟨b1, _ | ⟨b2, _ | ⟨g1, _ | ⟨g2, _ | ⟨g3, _ | ⟨g4, r3⟩⟩⟩⟩⟩⟩
                    · -- r2 = []
                      have h2 : parseStrBody f [] (uChar n :: acc) = some (content, rest) := by
                        simpa using h
                      rw [parseStrBody_nil] at h2
                      exact absurd h2 (by simp)
                    · -- r2 = [b1]
                      have h2 : parseStrBody f [b1] (uChar n :: acc) = some (content, rest) := by
                        simpa using h
                      have IH := parseStrBody_ext f [b1] (uChar n :: acc) content rest ext h2
                      simp only [parseVal] at IH
                      simp only [parseStrBody, List.cons_append, List.nil_append, hx]
                      rw [if_neg hq, if_pos hb, if_pos hu, if_pos hsur]
                      rcases ext with _ | ⟨e1, _ | ⟨e2, _ | ⟨e3, _ | ⟨e4, _ | ⟨e5, e6⟩⟩⟩⟩⟩
                      · exact IH
                      · exact IH
                      · exact IH
                      · exact IH
                      · exact IH
                      · simp only
                        by_cases hbu : b1 = '\\' ∧ e1 = 'u'
                        · obtain ⟨rfl, -⟩ := hbu
                          rw [strBody_back1] at h2
                          exact absurd h2 (by simp)
                        · rw [if_neg hbu]
                          exact IH
                    · -- r2 = [b1, b2]
                      have h2 : parseStrBody f [b1, b2] (uChar n :: acc)
                          = some (content, rest) := by
                        simpa using h
                      have IH := parseStrBody_ext f [b1, b2] (uChar n :: acc) content rest ext h2
                      simp only [parseStrBody, List.cons_append, List.nil_append, hx]
                      rw [if_neg hq, if_pos hb, if_pos hu, if_pos hsur]
                      rcases ext with _ | ⟨e1, _ | ⟨e2, _ | ⟨e3, _ | ⟨e4, e5⟩⟩⟩⟩
                      · exact IH
                      · exact IH
                      · exact IH
                      · exact IH
                      · simp only
                        by_cases hbu : b1 = '\\' ∧ b2 = 'u'
                        · obtain ⟨rfl, rfl⟩ := hbu
                          rw [strBody_back2] at h2
                          exact absurd h2 (by simp)
                        · rw [if_neg hbu]
                          exact IH
                    · -- r2 = [b1, b2, g1]
                      have h2 : parseStrBody f [b1, b2, g1] (uChar n :: acc)
                          = some (content, rest) := by
                        simpa using h
                      have IH := parseStrBody_ext f [b1, b2, g1] (uChar n :: acc)
                        content rest ext h2
                      simp only [parseStrBody, List.cons_append, List.nil_append, hx]
                      rw [if_neg hq, if_pos hb, if_pos hu, if_pos hsur]
                      rcases ext with _ | ⟨e1, _ | ⟨e2, _ | ⟨e3, e4⟩⟩⟩
                      · exact IH
                      · exact IH
                      · exact IH
                      · simp only
                        by_cases hbu : b1 = '\\' ∧ b2 = 'u'
                        · obtain ⟨rfl, rfl⟩ := hbu
                          rw [strBody_back3] at h2
                          exact absurd h2 (by simp)
                        · rw [if_neg hbu]
                          exact IH
                    · -- r2 = [b1, b2, g1, g2]
                      have h2 : parseStrBody f [b1, b2, g1, g2] (uChar n :: acc)
                          = some (content, rest) := by
                        simpa using h
                      have IH := parseStrBody_ext f [b1, b2, g1, g2] (uChar n :: acc)
                        content rest ext h2
                      simp only [parseStrBody, List.cons_append, List.nil_append, hx]
                      rw [if_neg hq, if_pos hb, if_pos hu, if_pos hsur]
                      rcases ext with _ | ⟨e1, _ | ⟨e2, e3⟩⟩
                      · exact IH
                      · exact IH
                      · simp only
                        by_cases hbu : b1 = '\\' ∧ b2 = 'u'
                        · obtain ⟨rfl, rfl⟩ := hbu
                          rw [strBody_back4] at h2
                          exact absurd h2 (by simp)
                        · rw [if_neg hbu]
                          exact IH
                    · -- r2 = [b1, b2, g1, g2, g3]
                      have h2 : parseStrBody f [b1, b2, g1, g2, g3] (uChar n :: acc)
                          = some (content, rest) := by
                        simpa using h
                      have IH := parseStrBody_ext f [b1, b2, g1, g2, g3] (uChar n :: acc)
                        content rest ext h2
                      simp only [parseStrBody, List.cons_append, List.nil_append, hx]
                      rw [if_neg hq, if_pos hb, if_pos hu, if_pos hsur]
                      rcases ext with _ | ⟨e1, e2⟩
                      · exact IH
                      · simp only
                        by_cases hbu : b1 = '\\' ∧ b2 = 'u'
                        · obtain ⟨rfl, rfl⟩ := hbu
                          rw [strBody_back5] at h2
                          exact absurd h2 (by simp)
                        · rw [if_neg hbu]
                          exact IH
                    · -- r2 is a full six-character tail
                      simp only at h
                      by_cases hbu : b1 = '\\' ∧ b2 = 'u'
                      · rw [if_pos hbu] at h
                        cases hg : hex4 g1 g2 g3 g4 with
                        | none =>
                          rw [hg] at h
                          have IH := parseStrBody_ext f
                            (b1 :: b2 :: g1 :: g2 :: g3 :: g4 :: r3) (uChar n :: acc)
                            content rest ext h
                          simp only [parseStrBody, List.cons_append, List.nil_append, hx, hg]
                          rw [if_neg hq, if_pos hb, if_pos hu, if_pos hsur, if_pos hbu]
                          exact IH
                        | some m =>
                          rw [hg] at h
                          simp only at h
                          by_cases hlow : 0xDC00 ≤ m ∧ m ≤ 0xDFFF
                          · rw [if_pos hlow] at h
                            have IH := parseStrBody_ext f r3
                              (Char.ofNat (0x10000 + (n - 0xD800) * 0x400 + (m - 0xDC00)) :: acc)
                              content rest ext h
                            simp only [parseStrBody, List.cons_append, List.nil_append, hx, hg]
                            rw [if_neg hq, if_pos hb, if_pos hu, if_pos hsur, if_pos hbu,
                              if_pos hlow]
                            exact IH
                          · rw [if_neg hlow] at h
                            have IH := parseStrBody_ext f
                              (b1 :: b2 :: g1 :: g2 :: g3 :: g4 :: r3) (uChar n :: acc)
                              content rest ext h
                            simp only [parseStrBody, List.cons_append, List.nil_append, hx, hg]
                            rw [if_neg hq, if_pos hb, if_pos hu, if_pos hsur, if_pos hbu,
                              if_neg hlow]
                            exact IH
                      · rw [if_neg hbu] at h
                        have IH := parseStrBody_ext f
                          (b1 :: b2 :: g1 :: g2 :: g3 :: g4 :: r3) (uChar n :: acc)
                          content rest ext h
                        simp only [parseStrBody, List.cons_append, List.nil_append, hx]
                        rw [if_neg hq, if_pos hb, if_pos hu, if_pos hsur, if_neg hbu]
                        exact IH
                  · rw [if_neg hsur] at h
                    have IH := parseStrBody_ext f r2 (uChar n :: acc) content rest ext h
                    simp only [parseStrBody, List.cons_append, List.nil_append, hx]
                    rw [if_neg hq, if_pos hb, if_pos hu, if_neg hsur]
                    exact IH
            · rw [if_neg hu] at h
              cases hse : simpleEscape e with
              | none => rw [hse] at h; simp at h
              | some d =>
                rw [hse] at h
                have IH := parseStrBody_ext f r1 (d :: acc) content rest ext h
                simp only [parseStrBody, List.cons_append, List.nil_append, hse]
                rw [if_neg hq, if_pos hb, if_neg hu]
                exact IH
        · rw [if_neg hb] at h
          by_cases hctl : c.toNat < 0x20
          · rw [if_pos hctl] at h
            simp at h
          · rw [if_neg hctl] at h
            have IH := parseStrBody_ext f r (c :: acc) content rest ext h
            simp only [parseStrBody, List.cons_append, List.nil_append]
            rw [if_neg hq, if_neg hb, if_neg hctl]
            exact IH

end

/-! ### The oversized brace span on two embedded objects -/

/-- On prose around two embedded brace-delimited chunks, the brace-span
heuristic returns exactly the span from the first opening brace to the last
closing brace, covering both chunks and the prose between them. -/
theorem braceSpan_two_objects (p1 a1 p2 a2 p3 : List Char)
    (hp1 : ∀ c ∈ p1, c ≠ '\x7b') (hp3 : ∀ c ∈ p3, c ≠ '\x7d') :
    braceSpan (p1 ++ ('\x7b' :: a1 ++ ['\x7d']) ++ p2 ++ ('\x7b' :: a2 ++ ['\x7d']) ++ p3)
      = some (('\x7b' :: a1 ++ ['\x7d']) ++ p2 ++ ('\x7b' :: a2 ++ ['\x7d'])) := by
  have hb1 : ∀ c ∈ p1, ((c != '\x7b') = true) := fun c hc => by
    simpa using hp1 c hc
  have hb3 : ∀ c ∈ p3.reverse, ((c != '\x7d') = true) := fun c hc => by
    simpa using hp3 c (List.mem_reverse.mp hc)
  have hw : p1 ++ ('\x7b' :: a1 ++ ['\x7d']) ++ p2 ++ ('\x7b' :: a2 ++ ['\x7d']) ++ p3
      = p1 ++ (('\x7b' :: a1 ++ ['\x7d']) ++ p2 ++ ('\x7b' :: a2 ++ ['\x7d']) ++ p3) := by
    simp
  have hfb : (p1 ++ ('\x7b' :: a1 ++ ['\x7d']) ++ p2 ++ ('\x7b' :: a2 ++ ['\x7d']) ++ p3).dropWhile
      (fun c => c != '\x7b')
      = ('\x7b' :: a1 ++ ['\x7d']) ++ p2 ++ ('\x7b' :: a2 ++ ['\x7d']) ++ p3 := by
    rw [hw, (while_append_nil (fun c => c != '\x7b') p1 _ (dropWhile_all_nil _ p1 hb1)).2,
      show (('\x7b' :: a1 ++ ['\x7d']) ++ p2 ++ ('\x7b' :: a2 ++ ['\x7d']) ++ p3)
        = '\x7b' :: ((a1 ++ ['\x7d']) ++ p2 ++ ('\x7b' :: a2 ++ ['\x7d']) ++ p3) from by simp,
      List.dropWhile_cons_of_neg (by decide)]
  have hrev : (('\x7b' :: a1 ++ ['\x7d']) ++ p2 ++ ('\x7b' :: a2 ++ ['\x7d']) ++ p3).reverse
      = p3.reverse ++ ('\x7d' ::
        ((('\x7b' :: a1 ++ ['\x7d']) ++ p2 ++ ('\x7b' :: a2)).reverse)) := by
    rw [show (('\x7b' :: a1 ++ ['\x7d']) ++ p2 ++ ('\x7b' :: a2 ++ ['\x7d']) ++ p3)
        = ((('\x7b' :: a1 ++ ['\x7d']) ++ p2 ++ ('\x7b' :: a2)) ++ ['\x7d']) ++ p3
        from by simp]
    rw [List.reverse_append, List.reverse_append]
    simp
  have hdrop2 : (p3.reverse ++ ('\x7d' ::
      ((('\x7b' :: a1 ++ ['\x7d']) ++ p2 ++ ('\x7b' :: a2)).reverse))).dropWhile
      (fun c => c != '\x7d')
      = '\x7d' :: ((('\x7b' :: a1 ++ ['\x7d']) ++ p2 ++ ('\x7b' :: a2)).reverse) := by
    rw [(while_append_nil (fun c => c != '\x7d') p3.reverse _
      (dropWhile_all_nil _ _ hb3)).2, List.dropWhile_cons_of_neg (by decide)]
  simp only [braceSpan]
  rw [hfb, hrev, hdrop2]
  simp [List.reverse_cons, List.reverse_reverse]

/-- The span from the first to the last brace over two complete objects and
interleaved prose never parses: the scanner consumes exactly the first
object and rejects the trailing input. -/
theorem loads_span_none (a1 p2 a2 : List Char) (m1 : List (String × Json))
    (hv1 : jsonLoadsL ('\x7b' :: a1 ++ ['\x7d']) = some (Json.obj m1)) :
    jsonLoadsL (('\x7b' :: a1 ++ ['\x7d']) ++ p2 ++ ('\x7b' :: a2 ++ ['\x7d'])) = none := by
  have hsk1 : skipWs ('\x7b' :: a1 ++ ['\x7d']) = '\x7b' :: a1 ++ ['\x7d'] := by
    rw [show ('\x7b' :: a1 ++ ['\x7d']) = '\x7b' :: (a1 ++ ['\x7d']) from by simp, skipWs,
      List.dropWhile_cons_of_neg (by decide)]
  have hdr1 : dropTrailWs ('\x7b' :: a1 ++ ['\x7d']) = '\x7b' :: a1 ++ ['\x7d'] := by
    rw [dropTrailWs, show (('\x7b' :: a1) ++ ['\x7d']) = ('\x7b' :: a1) ++ ['\x7d'] from rfl,
      revDrop_of_last _ _ (by decide)]
  have htrim1 : trimWs ('\x7b' :: a1 ++ ['\x7d']) = '\x7b' :: a1 ++ ['\x7d'] := by
    rw [trimWs, hsk1, hdr1]
  rw [jsonLoadsL, htrim1] at hv1
  cases hp : parseVal (3 * ('\x7b' :: a1 ++ ['\x7d']).length + 3) ('\x7b' :: a1 ++ ['\x7d']) with
  | none => rw [hp] at hv1; simp at hv1
  | some pr =>
    obtain ⟨v2, r⟩ := pr
    rw [hp] at hv1
    cases r with
    | cons c0 r0 => simp at hv1
    | nil =>
      simp only [Option.some.injEq] at hv1
      subst hv1
      have hsk2 : skipWs (('\x7b' :: a1 ++ ['\x7d']) ++ p2 ++ ('\x7b' :: a2 ++ ['\x7d']))
          = ('\x7b' :: a1 ++ ['\x7d']) ++ p2 ++ ('\x7b' :: a2 ++ ['\x7d']) := by
        rw [show (('\x7b' :: a1 ++ ['\x7d']) ++ p2 ++ ('\x7b' :: a2 ++ ['\x7d']))
            = '\x7b' :: ((a1 ++ ['\x7d']) ++ p2 ++ ('\x7b' :: a2 ++ ['\x7d'])) from by simp,
          skipWs, List.dropWhile_cons_of_neg (by decide)]
      have hdr2 : dropTrailWs (('\x7b' :: a1 ++ ['\x7d']) ++ p2 ++ ('\x7b' :: a2 ++ ['\x7d']))
          = ('\x7b' :: a1 ++ ['\x7d']) ++ p2 ++ ('\x7b' :: a2 ++ ['\x7d']) := by
        rw [show (('\x7b' :: a1 ++ ['\x7d']) ++ p2 ++ ('\x7b' :: a2 ++ ['\x7d']))
            = (('\x7b' :: a1 ++ ['\x7d']) ++ p2 ++ ('\x7b' :: a2)) ++ ['\x7d'] from by simp,
          dropTrailWs, revDrop_of_last _ _ (by decide)]
      have htrim2 : trimWs (('\x7b' :: a1 ++ ['\x7d']) ++ p2 ++ ('\x7b' :: a2 ++ ['\x7d']))
          = ('\x7b' :: a1 ++ ['\x7d']) ++ p2 ++ ('\x7b' :: a2 ++ ['\x7d']) := by
        rw [trimWs, hsk2, hdr2]
      rw [jsonLoadsL, htrim2]
      generalize hF : 3 * ((('\x7b' :: a1 ++ ['\x7d']) ++ p2 ++
        ('\x7b' :: a2 ++ ['\x7d'])).length) + 3 = F
      have hlen : 3 * ('\x7b' :: a1 ++ ['\x7d']).length + 3 ≤ F := by
        rw [← hF]
        simp only [List.length_append, List.length_cons]
        omega
      have hmono := parseVal_mono_le hlen hp
      have hext := parseVal_ext F ('\x7b' :: a1 ++ ['\x7d']) (Json.obj m1) []
        (p2 ++ ('\x7b' :: a2 ++ ['\x7d'])) hmono
        (Or.inr (Or.inr ⟨rfl, fun n hq => Json.noConfusion hq,
          fun l hq => Json.noConfusion hq⟩))
      obtain ⟨d, t, hdt⟩ : ∃ d t, p2 ++ ('\x7b' :: a2 ++ ['\x7d']) = d :: t := by
        cases p2 with
        | nil => exact ⟨'\x7b', a2 ++ ['\x7d'], by simp⟩
        | cons x xs => exact ⟨x, xs ++ ('\x7b' :: a2 ++ ['\x7d']), rfl⟩
      rw [List.nil_append, hdt] at hext
      rw [show (('\x7b' :: a1 ++ ['\x7d']) ++ p2 ++ ('\x7b' :: a2 ++ ['\x7d']))
          = ('\x7b' :: a1 ++ ['\x7d']) ++ (p2 ++ ('\x7b' :: a2 ++ ['\x7d'])) from by simp,
        hdt, hext]

/-! ### C5: two embedded objects and the oversized span -/

/-- C5 (confirmed). For a text that is not valid JSON as a whole, contains no
fenced block, and embeds two complete JSON objects in prose (no opening brace
before the first object, no closing brace after the second), the normalizer
attempts exactly the span from the first opening brace to the last closing
brace — covering both objects and the prose between them, not a balanced
scan — that oversized span does not parse, and the fixed fallback object is
returned. -/
theorem C5_two_object_span_falls_back (t : String)
    (p1 a1 p2 a2 p3 : List Char) (m1 m2 : List (String × Json))
    (hdec : t.toList
      = p1 ++ ('\x7b' :: a1 ++ ['\x7d']) ++ p2 ++ ('\x7b' :: a2 ++ ['\x7d']) ++ p3)
    (hv1 : jsonLoadsL ('\x7b' :: a1 ++ ['\x7d']) = some (Json.obj m1))
    (_hv2 : jsonLoadsL ('\x7b' :: a2 ++ ['\x7d']) = some (Json.obj m2))
    (hp1 : ∀ c ∈ p1, c ≠ '\x7b')
    (hp3 : ∀ c ∈ p3, c ≠ '\x7d')
    (h0 : jsonLoadsL t.toList = none)
    (hnt : containsTriple t.toList = false) :
    braceSpan t.toList
      = some (('\x7b' :: a1 ++ ['\x7d']) ++ p2 ++ ('\x7b' :: a2 ++ ['\x7d'])) ∧
    jsonLoadsL (('\x7b' :: a1 ++ ['\x7d']) ++ p2 ++ ('\x7b' :: a2 ++ ['\x7d'])) = none ∧
    parse_ai_response t = fallback_response := by
  have hbs := braceSpan_two_objects p1 a1 p2 a2 p3 hp1 hp3
  have hsp := loads_span_none a1 p2 a2 m1 hv1
  refine ⟨by rw [hdec]; exact hbs, hsp, ?_⟩
  refine parse_fallback_of_all_fail t h0 ?_ ?_
  · rw [fencedGroup_none_of_noTriple t.toList hnt]
    rfl
  · rw [hdec, hbs]
    simp only [Option.bind]
    exact hsp

/-- Witness for C5 at concrete prose embedding two JSON objects. -/
theorem C5_witness :
    braceSpan ("see \x7b\"a\": 1\x7d and \x7b\"b\": 2\x7d done").toList
      = some (('\x7b' :: "\"a\": 1".toList ++ ['\x7d']) ++ " and ".toList
          ++ ('\x7b' :: "\"b\": 2".toList ++ ['\x7d'])) ∧
    jsonLoadsL (('\x7b' :: "\"a\": 1".toList ++ ['\x7d']) ++ " and ".toList
        ++ ('\x7b' :: "\"b\": 2".toList ++ ['\x7d'])) = none ∧
    parse_ai_response "see \x7b\"a\": 1\x7d and \x7b\"b\": 2\x7d done" = fallback_response :=
  C5_two_object_span_falls_back "see \x7b\"a\": 1\x7d and \x7b\"b\": 2\x7d done"
    "see ".toList "\"a\": 1".toList " and ".toList "\"b\": 2".toList " done".toList
    [("a", Json.int 1)] [("b", Json.int 2)]
    rfl rfl rfl (by decide) (by decide) rfl rfl
